import Mathlib

/-!
A shallow embedding of the four-state arbitrary-precision integer kernel
(`SVInt`) of the slang repository (source/numeric/SVInt.cpp), together with
theorems settling the frozen claims about it.

The two bit planes of a value (value plane / unknown plane) are represented as
natural numbers; the word array `pVal` of the C++ code holds the value plane in
its low `ceil(bitWidth/64)` words and the unknown plane in the upper half, so
word-level loops of the source correspond to bitwise operations on these
naturals, truncated to the word count (`% 2 ^ (64 * words)`) where the source
wraps, and to the declared width where the source calls `clearUnusedBits`.
Operations whose C++ code reads memory that the active representation does not
own (the union member `val` read as a pointer, or `pVal` words past the
allocation) return `Option.none`.
-/

namespace SlangSV

/-- `2 ^ w - 1`: the mask that `clearUnusedBits` applies to the top word,
expressed on the whole plane. -/
def mask (w : Nat) : Nat := 2 ^ w - 1

/-- `MAX_BITS`: maximum bit width, derived from a 24-bit size specifier. -/
def MAXBITS : Nat := 2 ^ 24 - 1

/-- Number of 64-bit words used by one plane of a `bits`-wide value
(`getNumWords(bits, false)` in the source). -/
def numWords (bits : Nat) : Nat := (bits + 63) / 64

/-- A single 4-state logic value (`logic_t`). -/
inductive Logic where
  | zero
  | one
  | x
  | z
deriving DecidableEq, Repr

/-- Decode a 4-state bit from its two planes: `(v=0,u=0) → 0`, `(1,0) → 1`,
`(0,1) → X`, `(1,1) → Z`. -/
def logicOf (v u : Bool) : Logic :=
  if u then (if v then Logic.z else Logic.x) else (if v then Logic.one else Logic.zero)

/-- `logic_t::isUnknown`. -/
def Logic.isUnknown : Logic → Bool
  | Logic.x => true
  | Logic.z => true
  | _ => false

/-- A literal digit as held in the `logic_t` digit buffers of `fromString` /
`fromDigits`: either a numeric value or one of the unknown states. -/
inductive Digit where
  | val (n : Nat)
  | dx
  | dz
deriving DecidableEq, Repr

/-- Modelled from the spec: the raw byte `logic_t::value` of a digit.  The
header defining the constants `X_VALUE`/`Z_VALUE` is not under src/; any two
distinct values `≥ 16` behave identically in `fromDigits` (they only ever fail
the `value >= radix` test). -/
def Digit.byteVal : Digit → Nat
  | Digit.val n => n
  | Digit.dx => 128
  | Digit.dz => 129

/-- The `SVInt` value type.  `val` is the value plane, `unk` the unknown plane
(the upper half of `pVal`; `0` whenever `unknownFlag` is false, because then no
unknown plane is allocated). -/
structure SVInt where
  bitWidth : Nat
  signFlag : Bool
  unknownFlag : Bool
  val : Nat
  unk : Nat
deriving DecidableEq, Repr

/-- Representation well-formedness: nonzero width, planes clear above the
width (`clearUnusedBits`), and no unknown plane without the flag. -/
def wf (a : SVInt) : Prop :=
  1 ≤ a.bitWidth ∧ a.val < 2 ^ a.bitWidth ∧ a.unk < 2 ^ a.bitWidth ∧
    (a.unknownFlag = false → a.unk = 0)

/-- `hasUnknown()`. -/
def hasUnknown (a : SVInt) : Bool := a.unknownFlag

/-- Value stored by the primitive constructor `SVInt(bits, value, isSigned)`:
the 64-bit argument, sign-extended above bit 63 when the value is signed and
negative (`initSlowCase(uint64_t)`), then truncated to the width
(`clearUnusedBits`). -/
def mkVal (w : Nat) (value : Nat) (signed : Bool) : Nat :=
  let value := value % 2 ^ 64
  (if signed && value.testBit 63 then value + (2 ^ max w 64 - 2 ^ 64) else value) % 2 ^ w

/-- The primitive constructor `SVInt(bits, value, isSigned)`. -/
def mkSV (w : Nat) (value : Nat) (signed : Bool) : SVInt :=
  ⟨w, signed, false, mkVal w value signed, 0⟩

/-- `setAllX` applied to `*this`: value plane zeroed, unknown plane all ones
(then `clearUnusedBits`). -/
def setAllX (a : SVInt) : SVInt := ⟨a.bitWidth, a.signFlag, true, 0, mask a.bitWidth⟩

/-- `createFillX(bitWidth, isSigned)`. -/
def createFillX (w : Nat) (signed : Bool) : SVInt := ⟨w, signed, true, 0, mask w⟩

/-- `createFillZ(bitWidth, isSigned)`: `setAllZ` sets every word of both planes
to ones, then `clearUnusedBits`. -/
def createFillZ (w : Nat) (signed : Bool) : SVInt := ⟨w, signed, true, mask w, mask w⟩

/-- `checkUnknown()`: downgrade to the single-plane representation when the
unknown plane has no set bit left (the source detects this via
`countLeadingZeros() < bitWidth` over the two-plane word array). -/
def checkUnknown (a : SVInt) : SVInt :=
  if a.unknownFlag && a.unk == 0 then
    ⟨a.bitWidth, a.signFlag, false, a.val, a.unk⟩
  else a

/-- Sign-extension of one plane from width `oldW` to width `newW ≥ oldW`:
replicate the plane's top bit (`signExtendCopy` in SVIntHelpers, applied to the
value plane and, for unknown values, to the unknown plane with its own top
bit). -/
def sext (oldW newW : Nat) (n : Nat) : Nat :=
  if n.testBit (oldW - 1) then n + (2 ^ newW - 2 ^ oldW) else n

/-- `extend(value, bits, sign)`: `signExtend` when `sign`, else `zeroExtend`.
Both preserve the operand's own `signFlag` and `unknownFlag`; `signExtend`
extends each plane by its own top bit. -/
def extend (a : SVInt) (w : Nat) (sign : Bool) : SVInt :=
  if sign then ⟨w, a.signFlag, a.unknownFlag, sext a.bitWidth w a.val, sext a.bitWidth w a.unk⟩
  else ⟨w, a.signFlag, a.unknownFlag, a.val, a.unk⟩

/-- The width-unification step every binary operator starts with: the narrower
operand is extended to the wider one's width, with sign extension iff both
operands are signed.  The source expresses this by re-entering the operator
after extending; semantically one pass suffices. -/
def unify (a b : SVInt) : SVInt × SVInt :=
  let s := a.signFlag && b.signFlag
  if a.bitWidth < b.bitWidth then (extend a b.bitWidth s, b)
  else if b.bitWidth < a.bitWidth then (a, extend b a.bitWidth s)
  else (a, b)

/-- `isNegative()`: the top bit of the value plane. -/
def isNeg (a : SVInt) : Bool := a.val.testBit (a.bitWidth - 1)

/-- `isOdd()`: the low bit of the value plane. -/
def isOdd (a : SVInt) : Bool := a.val.testBit 0

/-- `getActiveBits()`: `bitWidth - countLeadingZeros`, i.e. one past the index
of the highest set bit of the value plane. -/
def getActiveBits (a : SVInt) : Nat := Nat.size a.val

/-- `operator+=` (and through it `operator+`): unify widths; any unknown
operand makes the whole result X (`setAllX`); otherwise word-array addition
(`addGeneral` / inline `val +=`) followed by `clearUnusedBits`, i.e. addition
modulo `2 ^ bitWidth`. -/
def add (a b : SVInt) : SVInt :=
  let p := unify a b
  let a := p.1
  let b := p.2
  if a.unknownFlag || b.unknownFlag then setAllX a
  else ⟨a.bitWidth, a.signFlag, a.unknownFlag, (a.val + b.val) % 2 ^ a.bitWidth, a.unk⟩

/-- `operator-=` (and `operator-`): as `add` with word-array subtraction, which
wraps modulo `2 ^ bitWidth`. -/
def sub (a b : SVInt) : SVInt :=
  let p := unify a b
  let a := p.1
  let b := p.2
  if a.unknownFlag || b.unknownFlag then setAllX a
  else ⟨a.bitWidth, a.signFlag, a.unknownFlag, (a.val + (2 ^ a.bitWidth - b.val)) % 2 ^ a.bitWidth, a.unk⟩

/-- `operator*=` (and `operator*`): unify, all-X on unknowns, otherwise
schoolbook multiplication truncated to the width. -/
def mul (a b : SVInt) : SVInt :=
  let p := unify a b
  let a := p.1
  let b := p.2
  if a.unknownFlag || b.unknownFlag then setAllX a
  else ⟨a.bitWidth, a.signFlag, a.unknownFlag, (a.val * b.val) % 2 ^ a.bitWidth, a.unk⟩

/-- Unary `operator-`: all-X when unknown, else `SVInt(bitWidth, 0, signFlag) - *this`. -/
def neg (a : SVInt) : SVInt :=
  if a.unknownFlag then createFillX a.bitWidth a.signFlag
  else sub ⟨a.bitWidth, a.signFlag, false, 0, 0⟩ a

/-- Base-`2^32` limbs produced by `splitWords`, most significant limb first
after the source's trimming of leading zero limbs; the single-limb division
loop of `SVInt::divide` walks them from the top, carrying the remainder. -/
def divLimbLoop (d : Nat) : List Nat → Nat → List Nat × Nat
  | [], r => ([], r)
  | l :: ls, r =>
    let p := r * 2 ^ 32 + l
    let rec' := divLimbLoop d ls (p % d)
    (p / d :: rec'.1, rec'.2)

/-- Value of a most-significant-first limb/digit list in base `B`. -/
def valMSB (B : Nat) (L : List Nat) : Nat := L.foldl (fun acc l => acc * B + l) 0

/-- The base-`2^32` limbs of `n`, least significant first, `c` of them. -/
def toLimbs (n c : Nat) : List Nat :=
  (List.range c).map (fun i => (n >>> (32 * i)) % 2 ^ 32)

/-- Drop leading (most-significant) zero limbs, as `SVInt::divide` trims the
divisor and dividend word counts. -/
def trimMSB : List Nat → List Nat
  | [] => []
  | l :: ls => if l = 0 then trimMSB ls else l :: ls

/-- `SVInt::divide(lhs, lhsWords, rhs, rhsWords, quotient, remainder)`.
The dividend and divisor are split into 32-bit limbs; when the trimmed divisor
is a single limb the source runs its 64-bit shift-and-subtract loop
(`divLimbLoop`), otherwise `knuthDiv`.  `knuthDiv` lives in SVIntHelpers.h,
which is not under src/; modelled from the spec: Knuth Algorithm D computes the
exact quotient and remainder over base-2^32 limbs.  `buildDivideResult` gives
the quotient the dividend's width and the remainder the divisor's width, both
with `signFlag = lhs.signFlag && rhs.signFlag`. -/
def divide (lhs : SVInt) (lhsWords : Nat) (rhs : SVInt) (rhsWords : Nat) : SVInt × SVInt :=
  let s := lhs.signFlag && rhs.signFlag
  let u := trimMSB (toLimbs lhs.val (2 * lhsWords)).reverse
  let v := trimMSB (toLimbs rhs.val (2 * rhsWords)).reverse
  let qr :=
    if v.length ≤ 1 then divLimbLoop (valMSB (2 ^ 32) v) u 0
    else ((toLimbs (lhs.val / rhs.val) (2 * lhsWords)).reverse, lhs.val % rhs.val)
  let q := valMSB (2 ^ 32) qr.1
  (if lhsWords = 1 then mkSV lhs.bitWidth q s else ⟨lhs.bitWidth, s, false, q, 0⟩,
   if rhsWords = 1 then mkSV rhs.bitWidth qr.2 s else ⟨rhs.bitWidth, s, false, qr.2, 0⟩)

/-- `udiv(lhs, rhs, bothSigned)`: unsigned division kernel; operands have equal
widths, no unknowns, `rhs ≠ 0`.  The `&lhs == &rhs` pointer shortcut of the
source fires only when the two references alias, in which case the values are
equal and the division below yields the same `1`; it is folded into the
value-equality branch. -/
def udiv (a b : SVInt) (s : Bool) : SVInt :=
  if a.bitWidth ≤ 64 && !a.unknownFlag then mkSV a.bitWidth (a.val / b.val) s
  else if a.val = 0 then mkSV a.bitWidth 0 s
  else if a.val = b.val then mkSV a.bitWidth 1 s
  else if a.val < b.val then mkSV a.bitWidth 0 s
  else if Nat.size a.val ≤ 64 && Nat.size b.val ≤ 64 then
    mkSV a.bitWidth (a.val / b.val) s
  else
    (divide a (numWords (Nat.size a.val)) b (numWords (Nat.size b.val))).1

/-- `urem(lhs, rhs, bothSigned)`. -/
def urem (a b : SVInt) (s : Bool) : SVInt :=
  if a.bitWidth ≤ 64 && !a.unknownFlag then mkSV a.bitWidth (a.val % b.val) s
  else if a.val = 0 then mkSV a.bitWidth 0 s
  else if a.val = b.val then mkSV a.bitWidth 0 s
  else if a.val < b.val then a
  else if Nat.size a.val ≤ 64 then mkSV a.bitWidth (a.val % b.val) s
  else
    (divide a (numWords (Nat.size a.val)) b (numWords (Nat.size b.val))).2

/-- `operator/`: unify widths; any unknown operand or a zero divisor yields
all X of the common width with `signFlag = bothSigned` (the header's
`rhs == 0` comparison on unknown-free operands tests the value plane); signed
division works on magnitudes and restores the sign. -/
def div (a b : SVInt) : SVInt :=
  let s := a.signFlag && b.signFlag
  let p := unify a b
  let a := p.1
  let b := p.2
  if a.unknownFlag || b.unknownFlag || b.val == 0 then createFillX a.bitWidth s
  else if s then
    if isNeg a then
      if isNeg b then udiv (neg a) (neg b) true
      else neg (udiv (neg a) b true)
    else if isNeg b then neg (udiv a (neg b) true)
    else udiv a b false
  else udiv a b false

/-- `operator%`. -/
def rem (a b : SVInt) : SVInt :=
  let s := a.signFlag && b.signFlag
  let p := unify a b
  let a := p.1
  let b := p.2
  if a.unknownFlag || b.unknownFlag || b.val == 0 then createFillX a.bitWidth s
  else if s then
    if isNeg a then
      if isNeg b then neg (urem (neg a) (neg b) true)
      else neg (urem (neg a) b true)
    else if isNeg b then urem a (neg b) true
    else urem a b false
  else urem a b false

/-- `shl(bitwidth_t amount)`: trivial cases, inline shift for single words,
otherwise `shlFar` on both planes (a left shift within the plane's word count)
followed by `clearUnusedBits` and `checkUnknown`. -/
def shlAmt (a : SVInt) (amount : Nat) : SVInt :=
  if amount = 0 then a
  else if a.bitWidth ≤ amount then mkSV a.bitWidth 0 a.signFlag
  else if a.bitWidth ≤ 64 && !a.unknownFlag then mkSV a.bitWidth (a.val <<< amount) a.signFlag
  else
    checkUnknown ⟨a.bitWidth, a.signFlag, a.unknownFlag,
      (a.val <<< amount) % 2 ^ a.bitWidth, (a.unk <<< amount) % 2 ^ a.bitWidth⟩

/-- `shl(const SVInt&)`: an unknown shift amount gives all X; an amount at
least the width gives zero (the header's `rhs >= bitWidth` comparison —
modelled from the spec, §4.4: an integer literal is an unsigned operand, so the
operands compare as unsigned values); otherwise shift by the converted
amount. -/
def shl (a b : SVInt) : SVInt :=
  if b.unknownFlag then createFillX a.bitWidth a.signFlag
  else if a.bitWidth ≤ b.val then mkSV a.bitWidth 0 a.signFlag
  else shlAmt a b.val

/-- `lshr(bitwidth_t amount)`: logical right shift of both planes; the source
allocates a zeroed result, shifts with `lshrFar`, and ends with
`checkUnknown`. -/
def lshrAmt (a : SVInt) (amount : Nat) : SVInt :=
  if amount = 0 then a
  else if a.bitWidth ≤ amount then mkSV a.bitWidth 0 a.signFlag
  else if a.bitWidth ≤ 64 && !a.unknownFlag then mkSV a.bitWidth (a.val >>> amount) a.signFlag
  else
    checkUnknown ⟨a.bitWidth, a.signFlag, a.unknownFlag, a.val >>> amount, a.unk >>> amount⟩

/-- `lshr(const SVInt&)`. -/
def lshr (a b : SVInt) : SVInt :=
  if b.unknownFlag then createFillX a.bitWidth a.signFlag
  else if a.bitWidth ≤ b.val then mkSV a.bitWidth 0 a.signFlag
  else lshrAmt a b.val

/-- The square-and-multiply loop of `modPow`: `mulReduce` multiplies and
truncates to the result width, so each step works modulo `2 ^ bw`. -/
def modPowLoop (bw : Nat) : Nat → Nat → Nat → Nat
  | 0, _, acc => acc
  | e + 1, b, acc =>
    let acc := if (e + 1) % 2 = 1 then acc * b % 2 ^ bw else acc
    modPowLoop bw ((e + 1) / 2) (b * b % 2 ^ bw) acc
decreasing_by exact Nat.div_lt_self (Nat.succ_pos e) (by omega)

/-- `modPow(base, exponent, bothSigned)`: modular exponentiation by squaring
with the result width as modulus; the result gets the base's width and
`setSigned(bothSigned)`. -/
def modPow (base expo : SVInt) (s : Bool) : SVInt :=
  ⟨base.bitWidth, s, false, modPowLoop base.bitWidth expo.val (base.val % 2 ^ base.bitWidth) (1 % 2 ^ base.bitWidth), 0⟩

/-- `pow(rhs)`: unknowns poison; special cases for zero base, zero exponent,
base one, base minus-one, negative exponents; otherwise modular
exponentiation.  Every branch produces a value of `*this`'s width.  The
`*this == SVInt(bitWidth, UINT64_MAX, bothSigned)` comparison on equal-width
unknown-free operands is value-plane equality, and that constructor yields the
all-ones pattern when `bothSigned`. -/
def pow (a b : SVInt) : SVInt :=
  let s := a.signFlag && b.signFlag
  if a.unknownFlag || b.unknownFlag then createFillX a.bitWidth s
  else if Nat.size a.val = 0 then
    if Nat.size b.val = 0 then mkSV a.bitWidth 1 s
    else if b.signFlag && isNeg b then createFillX a.bitWidth s
    else mkSV a.bitWidth 0 s
  else if Nat.size b.val = 0 || Nat.size a.val = 1 then mkSV a.bitWidth 1 s
  else if s && isNeg a && a.val = mask a.bitWidth then
    if isOdd b then mkSV a.bitWidth (2 ^ 64 - 1) s else mkSV a.bitWidth 1 s
  else if s && isNeg b then mkSV a.bitWidth 0 s
  else if s && isNeg a then
    if isOdd b then neg (modPow (neg a) b s) else modPow (neg a) b s
  else modPow a b s

/-- Bitwise AND NOT on naturals (`x & ~y` of the word loops, on planes on
which the complement's high bits are masked off anyway).  Written in the
XOR/AND form, which agrees bitwise with `Nat.ldiff`. -/
def ldiffN (x y : Nat) : Nat := x ^^^ (x &&& y)

/-- `operator&` = copy + `operator&=`.  After width unification the source
branches on `isSingleWord()` **of the left operand only**:
* left single-word (width ≤ 64, no unknowns) — `val &= rhs.val`; when the right
  operand has unknowns its active member is the heap pointer `pVal`, so the
  read is outside the embedding's domain (`none`);
* left two-plane — the 4-state truth-table word loop, which dereferences
  `rhs.pVal[i + words]`; when the right operand has no unknowns those words are
  not allocated (`none`);
* left heap single-plane (width > 64, no unknowns) — plain word-wise AND of the
  value planes, even when the right operand has unknowns.
No `checkUnknown` is performed. -/
def andOp (a b : SVInt) : Option SVInt :=
  let p := unify a b
  let a := p.1
  let b := p.2
  if a.bitWidth ≤ 64 && !a.unknownFlag then
    if b.unknownFlag then none
    else some ⟨a.bitWidth, a.signFlag, a.unknownFlag, (a.val &&& b.val) % 2 ^ a.bitWidth, a.unk⟩
  else if a.unknownFlag then
    if b.unknownFlag then
      let u := ((a.unk ||| a.val) &&& (b.unk ||| b.val) &&& (a.unk ||| b.unk)) % 2 ^ a.bitWidth
      some ⟨a.bitWidth, a.signFlag, true, ldiffN (a.val &&& b.val) u % 2 ^ a.bitWidth, u⟩
    else none
  else some ⟨a.bitWidth, a.signFlag, a.unknownFlag, (a.val &&& b.val) % 2 ^ a.bitWidth, a.unk⟩

/-- `exactlyEqual`: plain equality when neither side has unknowns; false when
exactly one does; after width unification, a memory compare of both planes. -/
def exactlyEqual (a b : SVInt) : Bool :=
  if !a.unknownFlag && !b.unknownFlag then
    decide ((unify a b).1.val = (unify a b).2.val)
  else if !a.unknownFlag || !b.unknownFlag then false
  else
    decide ((unify a b).1.val = (unify a b).2.val ∧ (unify a b).1.unk = (unify a b).2.unk)

/-- Modelled from the spec: the header's explicit conversion of an `SVInt`
condition to a single 4-state bit (§4.4 comparison semantics: any unknown → X,
otherwise nonzero test). -/
def condBit (c : SVInt) : Logic :=
  if c.unknownFlag then Logic.x
  else if c.val ≠ 0 then Logic.one else Logic.zero

/-- `conditional(condition, lhs, rhs)`: unify the operands; a known condition
selects one of them; an X condition returns `rhs` when the operands are
exactly equal, otherwise the per-word reconciliation
`u_r = u_a | u_b | (v_a ^ v_b)`, `v_r = ~u_r & v_a & v_b`
with `signFlag = bothSigned` and no final `checkUnknown`. -/
def conditional (c lhs rhs : SVInt) : SVInt :=
  let s := lhs.signFlag && rhs.signFlag
  let p := unify lhs rhs
  let l := p.1
  let r := p.2
  if condBit c = Logic.one then l
  else if condBit c = Logic.zero then r
  else if exactlyEqual l r then r
  else
    let u := (l.unk ||| r.unk ||| (l.val ^^^ r.val)) % 2 ^ l.bitWidth
    ⟨l.bitWidth, s, true, ldiffN (l.val &&& r.val) u % 2 ^ l.bitWidth, u⟩

/-- `operator[](int32_t)`: out-of-range → X, otherwise the 4-state bit decoded
from the two planes. -/
def getBit (a : SVInt) (i : Int) : Logic :=
  if i < 0 || a.bitWidth ≤ i.toNat then Logic.x
  else logicOf (a.val.testBit i.toNat) (a.unk.testBit i.toNat)

/-- Modelled from the spec: `as<int32_t>()` (header, not under src/) is the
narrowing conversion with overflow check — `none` when the value has unknown
bits or its numeric value (two's complement when `signFlag`) does not fit in a
signed 32-bit integer. -/
def asInt32 (a : SVInt) : Option Int :=
  if a.unknownFlag then none
  else
    let n : Int := if a.signFlag && a.val.testBit (a.bitWidth - 1) then
      (a.val : Int) - 2 ^ a.bitWidth else (a.val : Int)
    if n < -(2 ^ 31) || 2 ^ 31 ≤ n then none else some n

/-- `operator[](const SVInt& index)`: convert the index with `as<int32_t>`;
a failed conversion gives X before any range check. -/
def getBitSV (a idx : SVInt) : Logic :=
  match asInt32 idx with
  | none => Logic.x
  | some i => getBit a i

/-- Literal bases. -/
inductive Base where
  | binary
  | octal
  | decimal
  | hex
deriving DecidableEq, Repr

def Base.radix : Base → Nat
  | Base.binary => 2
  | Base.octal => 8
  | Base.decimal => 10
  | Base.hex => 16

/-- Bits per digit for the power-of-two bases (`shift` in `fromDigits`). -/
def Base.shiftN : Base → Nat
  | Base.binary => 1
  | Base.octal => 3
  | Base.decimal => 0
  | Base.hex => 4

/-- The fast path of `fromDigits` (`bits ≤ 64`, no unknowns): fold the digits
into a plain `uint64_t` by radix shift or multiply; a digit at least the radix
is an input error. -/
def fastFold (radix shiftv : Nat) : List Digit → Nat → Option Nat
  | [], v => some v
  | d :: ds, v =>
    let v := if shiftv ≠ 0 then v <<< shiftv % 2 ^ 64 else v * radix % 2 ^ 64
    let v := (v + d.byteVal) % 2 ^ 64
    if radix ≤ d.byteVal then none else fastFold radix shiftv ds v

/-- The decimal slow path loop of `fromDigits`: `result = result * 10 + digit`
in `SVInt` arithmetic of the declared width (no unknowns on this path). -/
def decFold (bits : Nat) : List Digit → Nat → Option Nat
  | [], v => some v
  | d :: ds, v =>
    if 10 ≤ d.byteVal then none
    else decFold bits ds ((v * 10 % 2 ^ bits + d.byteVal) % 2 ^ bits)

/-- Value-plane contribution of a digit on the power-of-two slow path of
`fromDigits` (an X digit contributes 0, a Z digit contributes ones). -/
def dVal (s : Nat) : Digit → Nat
  | Digit.val n => n
  | Digit.dx => 0
  | Digit.dz => 2 ^ s - 1

/-- Unknown-plane contribution of a digit on the power-of-two slow path of
`fromDigits`. -/
def dUnk (s : Nat) : Digit → Nat
  | Digit.val _ => 0
  | Digit.dx => 2 ^ s - 1
  | Digit.dz => 2 ^ s - 1

/-- The power-of-two slow path loop of `fromDigits`: per digit, shift both
planes left by `shift` within the plane's `W` words (`shlFar`) and add the
digit's value/unknown contribution; an X digit contributes value 0 and unknown
ones, a Z digit ones on both planes.  When `shift ≥ bits` (tiny widths with
unknowns, `W = 1`) the source clears the low word of each plane instead of
shifting. -/
def pow2Fold (bits radix shiftv W : Nat) (anyUnknown : Bool) :
    List Digit → Nat × Nat → Option (Nat × Nat)
  | [], vu => some vu
  | d :: ds, vu =>
    let ones := 2 ^ shiftv - 1
    let contrib : Option (Nat × Nat) :=
      match d with
      | Digit.dx => some (0, ones)
      | Digit.dz => some (ones, ones)
      | Digit.val n => if radix ≤ n then none else some (n, 0)
    match contrib with
    | none => none
    | some dc =>
      let sh : Nat × Nat :=
        if bits ≤ shiftv then (0, 0)
        else (vu.1 <<< shiftv % 2 ^ (64 * W),
              if anyUnknown then vu.2 <<< shiftv % 2 ^ (64 * W) else vu.2)
      pow2Fold bits radix shiftv W anyUnknown ds
        (sh.1 + dc.1, if anyUnknown then sh.2 + dc.2 else sh.2)

/-- `fromDigits(bits, base, isSigned, anyUnknown, digits)`.  After the
power-of-two slow path the planes get `clearUnusedBits` and `checkUnknown`;
if unknowns remain and the most significant *written* bit (bit
`digits.size()*shift - 1`) is unknown, that state is extended over the
remaining high bits of the width — the source reads and fills words of the
two-plane array, which is out of the representation (`none`) when the top
written bit lies beyond the allocated `W` words.  The word test
`pVal[topWord] >> (wordBits-1)` equals the test of bit `givenBits - 1` because
the fold writes no bits above `givenBits`. -/
def fromDigits (bits : Nat) (base : Base) (signed anyUnknown : Bool)
    (ds : List Digit) : Option SVInt :=
  if ds.isEmpty then none
  else if bits ≤ 64 && !anyUnknown then
    (fastFold base.radix base.shiftN ds 0).map (fun v => mkSV bits v signed)
  else if base = Base.decimal then
    if anyUnknown then
      if ds.length ≠ 1 then none
      else if ds.head? = some Digit.dz then some (createFillZ bits signed)
      else some (createFillX bits signed)
    else (decFold bits ds 0).map (fun v => ⟨bits, signed, false, v, 0⟩)
  else
    let W := numWords bits
    match pow2Fold bits base.radix base.shiftN W anyUnknown ds (0, 0) with
    | none => none
    | some vu =>
      let v := vu.1 % 2 ^ bits
      let u := vu.2 % 2 ^ bits
      let r := checkUnknown ⟨bits, signed, anyUnknown, v, u⟩
      if r.unknownFlag then
        let givenBits := ds.length * base.shiftN
        if W ≤ (givenBits - 1) / 64 then none
        else if u.testBit (givenBits - 1) then
          let fill := 2 ^ (64 * W) - 2 ^ givenBits
          some ⟨bits, signed, true,
            (if v.testBit (givenBits - 1) then (v ||| fill) % 2 ^ bits else v),
            (u ||| fill) % 2 ^ bits⟩
        else some r
      else some r

/-- The apostrophe character of the literal syntax. -/
def apos : Char := Char.ofNat 39

/-- Modelled from the spec: `isDecimalDigit` from text/CharInfo (the
character-classification helper, not under src/). -/
def isDecDigitChar (c : Char) : Bool := 48 ≤ c.toNat && c.toNat ≤ 57

/-- Modelled from the spec: `getDigitValue` from text/CharInfo. -/
def decVal (c : Char) : Nat := c.toNat - 48

/-- Modelled from the spec: `getHexDigitValue` from text/CharInfo; for a
non-digit character it returns a garbage byte, which `fromDigits` rejects with
its `value >= radix` check (any value `≥ 16` behaves identically). -/
def hexVal (c : Char) : Nat :=
  if 48 ≤ c.toNat && c.toNat ≤ 57 then c.toNat - 48
  else if 97 ≤ c.toNat && c.toNat ≤ 102 then c.toNat - 87
  else if 65 ≤ c.toNat && c.toNat ≤ 70 then c.toNat - 55
  else 255

/-- `literalBaseFromChar`. -/
def baseFromChar (c : Char) : Option Base :=
  if c = 'd' || c = 'D' then some Base.decimal
  else if c = 'b' || c = 'B' then some Base.binary
  else if c = 'o' || c = 'O' then some Base.octal
  else if c = 'h' || c = 'H' then some Base.hex
  else none

/-- The size-scanning loop of `fromString`: walk the characters up to an
apostrophe, folding decimal digits into `possibleSize` (a `uint32_t`, hence
the wrap), flagging overflow past `MAX_BITS` and any non-digit non-underscore
character.  Returns `(possibleSize, sizeBad, sizeOverflow, rest)` where `rest`
is the characters after the apostrophe if one was found. -/
def scanApos : List Char → Nat → Bool → Bool → Nat × Bool × Bool × Option (List Char)
  | [], acc, bad, ovf => (acc, bad, ovf, none)
  | c :: cs, acc, bad, ovf =>
    if c = apos then (acc, bad, ovf, some cs)
    else if isDecDigitChar c then
      let acc := (acc * 10 + decVal c) % 2 ^ 32
      scanApos cs acc bad (ovf || decide (MAXBITS < acc))
    else if c = '_' then scanApos cs acc bad ovf
    else scanApos cs acc true ovf

/-- The digit-collection loop of `fromString`: underscores are skipped,
`x`/`X` become X digits, `z`/`Z`/`?` become Z digits, everything else goes
through `getHexDigitValue`.  Also returns whether any unknown digit was
seen. -/
def collectDigits : List Char → List Digit × Bool
  | [] => ([], false)
  | c :: cs =>
    let r := collectDigits cs
    if c = '_' then r
    else if c = 'x' || c = 'X' then (Digit.dx :: r.1, true)
    else if c = 'z' || c = 'Z' || c = '?' then (Digit.dz :: r.1, true)
    else (Digit.val (hexVal c) :: r.1, r.2)

/-- `fromString`, on the character list of the input: optional sign, size scan,
optional `s` and base letter after the apostrophe (defaults: 32 bits, signed,
decimal when no apostrophe is present), digit collection, `fromDigits`, and
final negation for a leading minus.  `none` on every input the source rejects
by throwing. -/
def fromChars : List Char → Option SVInt
  | [] => none
  | c0 :: rest =>
    let negative := c0 = '-'
    let body := if c0 = '-' || c0 = '+' then rest else c0 :: rest
    if body.isEmpty then none
    else
      let scan := scanApos body 0 false false
      let cont : Option (Nat × Bool × Base × List Char) :=
        match scan.2.2.2 with
        | some afterApos =>
          if scan.2.1 || scan.2.2.1 || scan.1 == 0 then none
          else
            match afterApos with
            | [] => none
            | c1 :: rest1 =>
              let signedp := c1 = 's' || c1 = 'S'
              match (if signedp then rest1 else c1 :: rest1) with
              | [] => none
              | c2 :: rest2 =>
                match baseFromChar c2 with
                | none => none
                | some base =>
                  if rest2.isEmpty then none else some (scan.1, signedp, base, rest2)
        | none =>
          if scan.2.1 then none
          else some (32, true, Base.decimal, body)
      match cont with
      | none => none
      | some cfg =>
        let cd := collectDigits cfg.2.2.2
        match fromDigits cfg.1 cfg.2.2.1 cfg.2.1 cd.2 cd.1 with
        | none => none
        | some r => some (if negative then neg r else r)

def fromString (s : String) : Option SVInt := fromChars s.data

/-- The digit table `"0123456789abcdef"` of `writeTo`. -/
def digitChar (d : Nat) : Char := Char.ofNat (if d < 10 then 48 + d else 87 + d)

/-- The base guess of `toString()`: Binary for narrow or unknown values,
Decimal for 32-bit or signed values, otherwise Hex. -/
def chooseBase (a : SVInt) : Base :=
  if a.bitWidth < 8 || a.unknownFlag then Base.binary
  else if a.bitWidth == 32 || a.signFlag then Base.decimal
  else Base.hex

/-- `std::to_string`, digit loop (fuel-based; the fuel at the call sites
strictly exceeds the loop count). -/
def natToCharsGo : Nat → Nat → List Char
  | 0, _ => []
  | fuel + 1, n => if n = 0 then [] else digitChar (n % 10) :: natToCharsGo fuel (n / 10)

/-- `std::to_string` of the bit width. -/
def natToChars (n : Nat) : List Char :=
  if n = 0 then [Char.ofNat 48] else (natToCharsGo (n + 1) n).reverse

/-- The power-of-two digit loop of `writeTo`: keep extracting `shift`-bit
digits while the `tmp != 0` comparison is true or X; a digit with no unknown
bits prints from the digit table, otherwise `z` when any value bit of the
digit is set, else `x`.  The shift `tmp.lshr(shiftAmount)` can strip the last
unknown bits, downgrading `tmp` (fuel-based loop; the fuel at the call sites
strictly exceeds the loop count). -/
def pow2DigitsGo (shiftv : Nat) : Nat → SVInt → List Char
  | 0, _ => []
  | fuel + 1, t =>
    if t.unknownFlag || t.val ≠ 0 then
      let m := 2 ^ shiftv - 1
      let digit := t.val &&& m
      let ch :=
        if !t.unknownFlag then digitChar digit
        else if t.unk &&& m = 0 then digitChar digit
        else if digit ≠ 0 then 'z'
        else 'x'
      ch :: pow2DigitsGo shiftv fuel (lshrAmt t shiftv)
    else []

/-- The decimal digit loop of `writeTo`: repeatedly `divide` by the 4-bit
divisor 10, pushing each remainder digit (fuel-based; the fuel at the call
site strictly exceeds the loop count). -/
def decDigitsGo : Nat → SVInt → List Char
  | 0, _ => []
  | fuel + 1, t =>
    if t.val ≠ 0 then
      let qr := divide t (numWords t.bitWidth) (mkSV 4 10 false) 1
      digitChar qr.2.val :: decDigitsGo fuel qr.1
    else []

/-- `writeTo(buffer, base)`: optional minus for negative signed known values
(after negating `tmp`), the sized-literal stem `W'[s]<base>` unless the value
is a signed 32-bit known decimal, then the digit characters reversed into
most-significant-first order (`0` when no digit was produced).  A decimal
value with unknowns prints the single letter `z` when the low word of the
value plane is nonzero, else `x`. -/
def writeToChars (a : SVInt) (base : Base) : List Char :=
  let negative := a.signFlag && !a.unknownFlag && isNeg a
  let t := if negative then neg a else a
  let signPart : List Char := if negative then ['-'] else []
  let stemPart : List Char :=
    if base = Base.decimal && a.bitWidth == 32 && a.signFlag && !a.unknownFlag then []
    else
      natToChars a.bitWidth ++ [apos] ++ (if a.signFlag then ['s'] else []) ++
        [(match base with
          | Base.binary => 'b'
          | Base.octal => 'o'
          | Base.decimal => 'd'
          | Base.hex => 'h')]
  let digitsRev : List Char :=
    match base with
    | Base.decimal =>
      if a.unknownFlag then [if t.val % 2 ^ 64 ≠ 0 then 'z' else 'x']
      else decDigitsGo (t.val + 1) t
    | Base.binary => pow2DigitsGo 1 (t.val + t.unk + 2) t
    | Base.octal => pow2DigitsGo 3 (t.val + t.unk + 2) t
    | Base.hex => pow2DigitsGo 4 (t.val + t.unk + 2) t
  signPart ++ stemPart ++ (if digitsRev.isEmpty then [Char.ofNat 48] else digitsRev.reverse)

/-- `toString()` (base guessed). -/
def toString (a : SVInt) : String := String.mk (writeToChars a (chooseBase a))

/-- `toString(base)`. -/
def toStringBase (a : SVInt) (b : Base) : String := String.mk (writeToChars a b)

/-! ### Basic facts about extension and width unification -/

theorem extend_bitWidth (a : SVInt) (w : Nat) (s : Bool) : (extend a w s).bitWidth = w := by
  unfold extend; split <;> rfl

theorem extend_signFlag (a : SVInt) (w : Nat) (s : Bool) :
    (extend a w s).signFlag = a.signFlag := by
  unfold extend; split <;> rfl

theorem extend_unknownFlag (a : SVInt) (w : Nat) (s : Bool) :
    (extend a w s).unknownFlag = a.unknownFlag := by
  unfold extend; split <;> rfl

theorem extend_val_zero (a : SVInt) (w : Nat) (s : Bool) (h : a.val = 0) :
    (extend a w s).val = 0 := by
  unfold extend sext
  split <;> simp [h]

theorem unify_fst_bitWidth (a b : SVInt) :
    (unify a b).1.bitWidth = max a.bitWidth b.bitWidth := by
  unfold unify
  split_ifs with h1 h2 <;> simp [extend_bitWidth] <;> omega

theorem unify_snd_bitWidth (a b : SVInt) :
    (unify a b).2.bitWidth = max a.bitWidth b.bitWidth := by
  unfold unify
  split_ifs with h1 h2 <;> simp [extend_bitWidth] <;> omega

theorem unify_fst_signFlag (a b : SVInt) : (unify a b).1.signFlag = a.signFlag := by
  unfold unify
  split_ifs <;> simp [extend_signFlag]

theorem unify_snd_signFlag (a b : SVInt) : (unify a b).2.signFlag = b.signFlag := by
  unfold unify
  split_ifs <;> simp [extend_signFlag]

theorem unify_fst_unknownFlag (a b : SVInt) :
    (unify a b).1.unknownFlag = a.unknownFlag := by
  unfold unify
  split_ifs <;> simp [extend_unknownFlag]

theorem unify_snd_unknownFlag (a b : SVInt) :
    (unify a b).2.unknownFlag = b.unknownFlag := by
  unfold unify
  split_ifs <;> simp [extend_unknownFlag]

theorem unify_snd_val_zero (a b : SVInt) (h : b.val = 0) : (unify a b).2.val = 0 := by
  unfold unify
  split_ifs <;> simp [extend_val_zero, h]

theorem checkUnknown_ne (a : SVInt) (h : a.unk ≠ 0) : checkUnknown a = a := by
  unfold checkUnknown
  rw [if_neg (by simp [h])]

theorem neg_bitWidth (a : SVInt) : (neg a).bitWidth = a.bitWidth := by
  unfold neg
  split
  · rfl
  · simp only [sub, unify]
    split_ifs <;> simp_all [extend_bitWidth, setAllX]

theorem modPow_bitWidth (b e : SVInt) (s : Bool) : (modPow b e s).bitWidth = b.bitWidth := rfl

/-! ### The claims -/

/-- C9: `pow` always returns a value whose bit width equals the left operand's
bit width — no width unification with the exponent takes place, even when the
exponent operand is wider than the base. -/
theorem c9_pow_width (a b : SVInt) : (pow a b).bitWidth = a.bitWidth := by
  unfold pow
  repeat' split
  all_goals
    simp [apply_ite SVInt.bitWidth, createFillX, mkSV, modPow_bitWidth, neg_bitWidth]

/-- C10: indexing with an `SVInt` index returns X whenever the index cannot be
converted to a signed 32-bit integer (unknown bits, or a value outside the
int32 range), for every indexed value — i.e. before any range check against
its bit width. -/
theorem c10_index_unknown (a idx : SVInt) (h : asInt32 idx = none) :
    getBitSV a idx = Logic.x := by
  unfold getBitSV
  rw [h]

/-- Witness for C10: an all-X one-bit index and a 64-bit index holding `2^40`
both fail the conversion, and indexing any value with them gives X. -/
theorem c10_index_unknown_witness :
    asInt32 (createFillX 1 false) = none ∧
    asInt32 (mkSV 64 (2 ^ 40) false) = none ∧
    getBitSV ⟨8, false, false, 255, 0⟩ (createFillX 1 false) = Logic.x ∧
    getBitSV ⟨8, false, false, 255, 0⟩ (mkSV 64 (2 ^ 40) false) = Logic.x :=
  ⟨by decide, by decide,
    c10_index_unknown _ _ (by decide), c10_index_unknown _ _ (by decide)⟩

/-- C2: for operands with no unknown bits and a zero divisor, both `operator/`
and `operator%` return — without raising — the all-X value of the unified
width, with `signFlag` the conjunction of the operands' sign flags. -/
theorem c2_div_zero_allx (a b : SVInt) (ha : a.unknownFlag = false)
    (hb : b.unknownFlag = false) (hz : b.val = 0) :
    div a b = createFillX (max a.bitWidth b.bitWidth) (a.signFlag && b.signFlag) ∧
    rem a b = createFillX (max a.bitWidth b.bitWidth) (a.signFlag && b.signFlag) := by
  have hz' : (unify a b).2.val = 0 := unify_snd_val_zero a b hz
  constructor
  · simp only [div]
    rw [if_pos (by simp [hz'])]
    rw [unify_fst_bitWidth]
  · simp only [rem]
    rw [if_pos (by simp [hz'])]
    rw [unify_fst_bitWidth]

/-- Witness for C2: `8'd5 / 8'd0` and `8'd5 % 8'd0` are the all-X 8-bit
value. -/
theorem c2_div_zero_allx_witness :
    (⟨8, false, false, 5, 0⟩ : SVInt).unknownFlag = false ∧
    (⟨8, false, false, 0, 0⟩ : SVInt).unknownFlag = false ∧
    (⟨8, false, false, 0, 0⟩ : SVInt).val = 0 ∧
    (div ⟨8, false, false, 5, 0⟩ ⟨8, false, false, 0, 0⟩ =
        createFillX (max 8 8) (false && false) ∧
      rem ⟨8, false, false, 5, 0⟩ ⟨8, false, false, 0, 0⟩ =
        createFillX (max 8 8) (false && false)) :=
  ⟨rfl, rfl, rfl, c2_div_zero_allx _ _ rfl rfl rfl⟩

/-- C3 (code bug): `fromString("8'b1100") & fromString("8'b10x0")` does not
produce the claimed `8'b1000`.  The left operand is single-word, so
`operator&=` executes `val &= rhs.val` reading the union's pointer member of
the unknown right operand (outside the domain, `none`); and for widths over 64
the same mixed case is well defined but ANDs the value planes only — `65'h1 &
(65-bit value with bit 0 = x)` gives a fully known `0` where the claimed truth
table requires X. -/
theorem c3_and_mixed_repr_bug :
    fromChars [ '8', apos, 'b', '1', '1', '0', '0' ] =
      some ⟨8, false, false, 12, 0⟩ ∧
    fromChars [ '8', apos, 'b', '1', '0', 'x', '0' ] =
      some ⟨8, false, true, 8, 2⟩ ∧
    andOp ⟨8, false, false, 12, 0⟩ ⟨8, false, true, 8, 2⟩ = none ∧
    andOp ⟨65, false, false, 1, 0⟩ ⟨65, false, true, 0, 1⟩ =
      some ⟨65, false, false, 0, 0⟩ ∧
    getBit ⟨65, false, false, 0, 0⟩ 0 = Logic.zero ∧
    getBit ⟨65, false, true, 0, 1⟩ 0 = Logic.x := by
  decide

/-- C4 (code bug): `operator&=` never calls `checkUnknown`, so an AND of two
unknown operands whose result has an all-zero unknown plane keeps
`unknownFlag = true` — `hasUnknown` stays true instead of the claimed
downgrade (`4'b000x & 4'b00x0`). -/
theorem c4_and_keeps_stale_unknown_flag :
    fromChars [ '4', apos, 'b', '0', '0', '0', 'x' ] =
      some ⟨4, false, true, 0, 1⟩ ∧
    fromChars [ '4', apos, 'b', '0', '0', 'x', '0' ] =
      some ⟨4, false, true, 0, 2⟩ ∧
    andOp ⟨4, false, true, 0, 1⟩ ⟨4, false, true, 0, 2⟩ =
      some ⟨4, false, true, 0, 0⟩ ∧
    hasUnknown ⟨4, false, true, 0, 0⟩ = true ∧
    (⟨4, false, true, 0, 0⟩ : SVInt).unk = 0 := by
  decide

/-- C1 counterexample: for `<<` the claim fails — `2'bx0 << 1` (left operand
has an unknown bit, shift amount known) is the fully known `2'b00`:
`checkUnknown` downgrades it, so the result is not all X and `hasUnknown` is
false. -/
theorem c1_shift_counterexample :
    hasUnknown ⟨2, false, true, 0, 2⟩ = true ∧
    shl ⟨2, false, true, 0, 2⟩ ⟨2, false, false, 1, 0⟩ = ⟨2, false, false, 0, 0⟩ ∧
    hasUnknown (shl ⟨2, false, true, 0, 2⟩ ⟨2, false, false, 1, 0⟩) = false := by
  decide

/-- C1 amended: if either operand has unknown bits then `+ − × ÷ % **` give
the all-X result — `+ − ×` at the unified width with the left operand's sign
flag, `÷ %` at the unified width with the both-signed flag, `**` at the *left
operand's* width with the both-signed flag — and `hasUnknown` of those results
is true; for `<<` and `>>` only an unknown *shift amount* yields all X (at the
left operand's width), while a left operand with unknowns is shifted
per-plane, which can erase every unknown bit. -/
theorem c1_xprop_amended (a b : SVInt)
    (h : a.unknownFlag = true ∨ b.unknownFlag = true) :
    add a b = createFillX (max a.bitWidth b.bitWidth) a.signFlag ∧
    sub a b = createFillX (max a.bitWidth b.bitWidth) a.signFlag ∧
    mul a b = createFillX (max a.bitWidth b.bitWidth) a.signFlag ∧
    div a b = createFillX (max a.bitWidth b.bitWidth) (a.signFlag && b.signFlag) ∧
    rem a b = createFillX (max a.bitWidth b.bitWidth) (a.signFlag && b.signFlag) ∧
    pow a b = createFillX a.bitWidth (a.signFlag && b.signFlag) ∧
    (b.unknownFlag = true →
      shl a b = createFillX a.bitWidth a.signFlag ∧
      lshr a b = createFillX a.bitWidth a.signFlag) ∧
    (a.unknownFlag = true →
      neg a = createFillX a.bitWidth a.signFlag ∧ hasUnknown (neg a) = true) ∧
    hasUnknown (add a b) = true ∧ hasUnknown (sub a b) = true ∧
    hasUnknown (mul a b) = true ∧ hasUnknown (div a b) = true ∧
    hasUnknown (rem a b) = true ∧ hasUnknown (pow a b) = true := by
  have huf : ((unify a b).1.unknownFlag || (unify a b).2.unknownFlag) = true := by
    rw [unify_fst_unknownFlag, unify_snd_unknownFlag]
    rcases h with h | h <;> simp [h]
  have hx : setAllX (unify a b).1 = createFillX (max a.bitWidth b.bitWidth) a.signFlag := by
    simp [setAllX, createFillX, unify_fst_bitWidth, unify_fst_signFlag]
  have hadd : add a b = createFillX (max a.bitWidth b.bitWidth) a.signFlag := by
    simp only [add]
    rw [if_pos huf, hx]
  have hsub : sub a b = createFillX (max a.bitWidth b.bitWidth) a.signFlag := by
    simp only [sub]
    rw [if_pos huf, hx]
  have hmul : mul a b = createFillX (max a.bitWidth b.bitWidth) a.signFlag := by
    simp only [mul]
    rw [if_pos huf, hx]
  have hdiv : div a b = createFillX (max a.bitWidth b.bitWidth) (a.signFlag && b.signFlag) := by
    simp only [div]
    rw [if_pos (by simp_all), unify_fst_bitWidth]
  have hrem : rem a b = createFillX (max a.bitWidth b.bitWidth) (a.signFlag && b.signFlag) := by
    simp only [rem]
    rw [if_pos (by simp_all), unify_fst_bitWidth]
  have hpow : pow a b = createFillX a.bitWidth (a.signFlag && b.signFlag) := by
    simp only [pow]
    rw [if_pos (by rcases h with h | h <;> simp [h])]
  refine ⟨hadd, hsub, hmul, hdiv, hrem, hpow, ?_, ?_, ?_, ?_, ?_, ?_, ?_, ?_⟩ <;>
    first
      | (intro hb; constructor <;> simp [shl, lshr, neg, hb, hasUnknown, createFillX])
      | simp [hadd, hsub, hmul, hdiv, hrem, hpow, hasUnknown, createFillX]

/-- Witness for C1 amended: a one-bit all-X left operand against a known
one-bit zero, exercising the binary operators and unary minus. -/
theorem c1_xprop_witness :
    ((createFillX 1 false).unknownFlag = true ∨
      (⟨1, false, false, 0, 0⟩ : SVInt).unknownFlag = true) ∧
    add (createFillX 1 false) ⟨1, false, false, 0, 0⟩ = createFillX (max 1 1) false ∧
    pow (createFillX 1 false) ⟨1, false, false, 0, 0⟩ = createFillX 1 (false && false) ∧
    neg (createFillX 1 false) = createFillX 1 false :=
  ⟨Or.inl rfl,
    (c1_xprop_amended (createFillX 1 false) ⟨1, false, false, 0, 0⟩ (Or.inl rfl)).1,
    (c1_xprop_amended (createFillX 1 false) ⟨1, false, false, 0, 0⟩
      (Or.inl rfl)).2.2.2.2.2.1,
    ((c1_xprop_amended (createFillX 1 false) ⟨1, false, false, 0, 0⟩
      (Or.inl rfl)).2.2.2.2.2.2.2.1 rfl).1⟩

/-- C5 counterexample: with an X condition and the two operands both `1'bz`,
`conditional` returns the Z bit unchanged (the `exactlyEqual` early-out),
where the claim demands X at positions where both operands hold Z. -/
theorem c5_cond_z_counterexample :
    conditional (createFillX 1 false) (createFillZ 1 false) (createFillZ 1 false) =
      createFillZ 1 false ∧
    getBit (conditional (createFillX 1 false) (createFillZ 1 false) (createFillZ 1 false)) 0 =
      Logic.z := by
  decide

theorem testBit_ldiffN (x y : Nat) (k : Nat) :
    (ldiffN x y).testBit k = (x.testBit k && !y.testBit k) := by
  simp only [ldiffN, Nat.testBit_xor, Nat.testBit_land]
  cases x.testBit k <;> cases y.testBit k <;> rfl

/-- C5 amended: with an X condition bit, `conditional` returns the right
operand unchanged when the two width-unified operands are exactly equal
(4-state bit-for-bit, so shared Z bits survive); otherwise every result bit is
a known bit exactly when the corresponding bits of both unified operands are
known and equal — in which case it is that common bit — and X otherwise. -/
theorem c5_conditional_amended (c lhs rhs : SVInt) (h : condBit c = Logic.x) :
    (exactlyEqual (unify lhs rhs).1 (unify lhs rhs).2 = true →
      conditional c lhs rhs = (unify lhs rhs).2) ∧
    (exactlyEqual (unify lhs rhs).1 (unify lhs rhs).2 = false →
      (conditional c lhs rhs).bitWidth = max lhs.bitWidth rhs.bitWidth ∧
      ∀ i : Nat, i < max lhs.bitWidth rhs.bitWidth →
        getBit (conditional c lhs rhs) (i : Int) =
          (if (unify lhs rhs).1.unk.testBit i = false ∧
              (unify lhs rhs).2.unk.testBit i = false ∧
              (unify lhs rhs).1.val.testBit i = (unify lhs rhs).2.val.testBit i then
            (if (unify lhs rhs).1.val.testBit i then Logic.one else Logic.zero)
          else Logic.x)) := by
  have hxo : condBit c ≠ Logic.one := by rw [h]; decide
  have hxz : condBit c ≠ Logic.zero := by rw [h]; decide
  constructor
  · intro he
    simp only [conditional]
    rw [if_neg hxo, if_neg hxz, if_pos he]
  · intro he
    have hrec : conditional c lhs rhs =
        ⟨(unify lhs rhs).1.bitWidth, lhs.signFlag && rhs.signFlag, true,
          ldiffN ((unify lhs rhs).1.val &&& (unify lhs rhs).2.val)
              (((unify lhs rhs).1.unk ||| (unify lhs rhs).2.unk |||
                ((unify lhs rhs).1.val ^^^ (unify lhs rhs).2.val)) %
                2 ^ (unify lhs rhs).1.bitWidth) % 2 ^ (unify lhs rhs).1.bitWidth,
          ((unify lhs rhs).1.unk ||| (unify lhs rhs).2.unk |||
            ((unify lhs rhs).1.val ^^^ (unify lhs rhs).2.val)) % 2 ^ (unify lhs rhs).1.bitWidth⟩ := by
      simp only [conditional]
      rw [if_neg hxo, if_neg hxz, if_neg (by simp [he])]
    refine ⟨by rw [hrec]; exact unify_fst_bitWidth lhs rhs, ?_⟩
    intro i hi
    have hbw : i < (unify lhs rhs).1.bitWidth := by rw [unify_fst_bitWidth]; exact hi
    rw [hrec]
    simp only [getBit, Int.toNat_natCast]
    rw [if_neg (by simp; omega)]
    simp only [logicOf, Nat.testBit_mod_two_pow, testBit_ldiffN, Nat.testBit_land,
      Nat.testBit_lor, Nat.testBit_xor, hbw, decide_True, Bool.true_and]
    cases hua : (unify lhs rhs).1.unk.testBit i <;>
      cases hub : (unify lhs rhs).2.unk.testBit i <;>
        cases hva : (unify lhs rhs).1.val.testBit i <;>
          cases hvb : (unify lhs rhs).2.val.testBit i <;> simp

/-- Witness for C5 amended: condition `1'bx`, left operand `2'b01` (known),
right operand `2'bx1`: bit 0 agrees and is known 1, bit 1 is X. -/
theorem c5_conditional_amended_witness :
    condBit (createFillX 1 false) = Logic.x ∧
    getBit (conditional (createFillX 1 false) ⟨2, false, false, 1, 0⟩
        ⟨2, false, true, 1, 2⟩) (0 : Nat) = Logic.one ∧
    getBit (conditional (createFillX 1 false) ⟨2, false, false, 1, 0⟩
        ⟨2, false, true, 1, 2⟩) (1 : Nat) = Logic.x := by
  have h := (c5_conditional_amended (createFillX 1 false) ⟨2, false, false, 1, 0⟩
      ⟨2, false, true, 1, 2⟩ (by decide)).2 (by decide)
  refine ⟨by decide, ?_, ?_⟩
  · rw [h.2 0 (by decide)]
    decide
  · rw [h.2 1 (by decide)]
    decide

/-- C8 counterexample: `toString()` on the 16-bit all-X value does not yield
`16'hxxxx` (the base guess picks Binary whenever unknowns are present). -/
theorem c8_counterexample :
    SlangSV.toString (createFillX 16 false) ≠
      String.mk ([ '1', '6', apos, 'h' ] ++ List.replicate 4 'x') := by
  decide

/-- C8 amended: `fromString("16'hx")` is the 16-bit value whose every bit is X,
but `toString()` on it prints in *binary* — `16'bxxxxxxxxxxxxxxxx` — because
the base guess chooses Binary for any value with unknowns; the hex form
`16'hxxxx` is produced only by `toString(Hex)`. -/
theorem c8_amended :
    fromChars [ '1', '6', apos, 'h', 'x' ] = some (createFillX 16 false) ∧
    SlangSV.toString (createFillX 16 false) =
      String.mk ([ '1', '6', apos, 'b' ] ++ List.replicate 16 'x') ∧
    toStringBase (createFillX 16 false) Base.hex =
      String.mk ([ '1', '6', apos, 'h' ] ++ List.replicate 4 'x') := by
  decide

/-! ### C6: unknown extension of the top written bit in `fromDigits` -/

theorem valMSB_init (B a : Nat) (L : List Nat) :
    List.foldl (fun acc l => acc * B + l) a L = a * B ^ L.length + valMSB B L := by
  induction L generalizing a with
  | nil => simp [valMSB]
  | cons d L ih =>
    have hc : valMSB B (d :: L) = d * B ^ L.length + valMSB B L := by
      simp only [valMSB, List.foldl_cons, Nat.zero_mul, Nat.zero_add]
      exact ih d
    simp only [List.foldl_cons, List.length_cons, hc]
    rw [ih (a * B + d)]
    ring

theorem valMSB_cons (B d : Nat) (L : List Nat) :
    valMSB B (d :: L) = d * B ^ L.length + valMSB B L := by
  simp only [valMSB, List.foldl_cons, Nat.zero_mul, Nat.zero_add]
  exact valMSB_init B d L

theorem valMSB_lt (B : Nat) (L : List Nat) (hB : 1 ≤ B) (h : ∀ l ∈ L, l < B) :
    valMSB B L < B ^ L.length := by
  induction L with
  | nil => simp [valMSB]
  | cons d L ih =>
    rw [valMSB_cons, List.length_cons]
    have hd : d < B := h d (by simp)
    have hL : valMSB B L < B ^ L.length := ih (fun l hl => h l (by simp [hl]))
    calc d * B ^ L.length + valMSB B L < d * B ^ L.length + B ^ L.length := by omega
      _ = (d + 1) * B ^ L.length := by ring
      _ ≤ B * B ^ L.length := Nat.mul_le_mul_right _ (by omega)
      _ = B ^ (L.length + 1) := by ring

theorem mulAdd_lt (x d k s : Nat) (hx : x < 2 ^ k) (hd : d < 2 ^ s) :
    x * 2 ^ s + d < 2 ^ (k + s) := by
  have h1 : x * 2 ^ s ≤ (2 ^ k - 1) * 2 ^ s :=
    Nat.mul_le_mul_right _ (by omega)
  have h2 : 2 ^ s ≤ 2 ^ k * 2 ^ s := Nat.le_mul_of_pos_left _ (Nat.two_pow_pos k)
  rw [pow_add]
  rw [Nat.sub_mul, one_mul] at h1
  omega

theorem headDigit_lt (D R M B : Nat) (hD : D < B) (hR : R < M) : D * M + R < B * M := by
  calc D * M + R < D * M + M := by omega
    _ = (D + 1) * M := by ring
    _ ≤ B * M := Nat.mul_le_mul_right _ (by omega)

theorem dVal_lt (s : Nat) (d : Digit) (h : ∀ n, d = Digit.val n → n < 2 ^ s) :
    dVal s d < 2 ^ s := by
  cases d with
  | val n => exact h n rfl
  | dx => exact Nat.two_pow_pos s
  | dz =>
    have := Nat.one_le_two_pow (n := s)
    simp only [dVal]
    omega

theorem dUnk_lt (s : Nat) (d : Digit) : dUnk s d < 2 ^ s := by
  have := Nat.one_le_two_pow (n := s)
  cases d <;> simp only [dUnk] <;> omega

theorem pow2Fold_true_spec (bits s W : Nat) (hsb : s < bits) :
    ∀ (ds : List Digit) (v u k : Nat),
      (∀ d ∈ ds, ∀ n, d = Digit.val n → n < 2 ^ s) →
      v < 2 ^ k → u < 2 ^ k → k + s * ds.length ≤ 64 * W →
      pow2Fold bits (2 ^ s) s W true ds (v, u) =
        some (v * (2 ^ s) ^ ds.length + valMSB (2 ^ s) (ds.map (dVal s)),
          u * (2 ^ s) ^ ds.length + valMSB (2 ^ s) (ds.map (dUnk s))) := by
  intro ds
  induction ds with
  | nil =>
    intro v u k _ _ _ _
    simp [pow2Fold, valMSB]
  | cons d ds ih =>
    intro v u k hok hv hu hk
    have hkk : k + s + s * ds.length ≤ 64 * W := by
      simp only [List.length_cons, Nat.mul_succ] at hk
      omega
    have hvs : v <<< s % 2 ^ (64 * W) = v * 2 ^ s := by
      rw [Nat.shiftLeft_eq]
      apply Nat.mod_eq_of_lt
      have h1 := mulAdd_lt v 0 k s hv (Nat.two_pow_pos s)
      have h2 : 2 ^ (k + s) ≤ 2 ^ (64 * W) := Nat.pow_le_pow_right (by omega) (by omega)
      omega
    have hus : u <<< s % 2 ^ (64 * W) = u * 2 ^ s := by
      rw [Nat.shiftLeft_eq]
      apply Nat.mod_eq_of_lt
      have h1 := mulAdd_lt u 0 k s hu (Nat.two_pow_pos s)
      have h2 : 2 ^ (k + s) ≤ 2 ^ (64 * W) := Nat.pow_le_pow_right (by omega) (by omega)
      omega
    have hnotbs : ¬ bits ≤ s := by omega
    have hok' : ∀ d' ∈ ds, ∀ n, d' = Digit.val n → n < 2 ^ s :=
      fun d' hd' n hn => hok d' (by simp [hd']) n hn
    have hones : 2 ^ s - 1 < 2 ^ s := by
      have := Nat.one_le_two_pow (n := s)
      omega
    have hfin : ∀ dv du : Nat, dv < 2 ^ s → du < 2 ^ s →
        pow2Fold bits (2 ^ s) s W true ds (v * 2 ^ s + dv, u * 2 ^ s + du) =
          some (v * (2 ^ s) ^ (ds.length + 1) +
              (dv * (2 ^ s) ^ ds.length + valMSB (2 ^ s) (ds.map (dVal s))),
            u * (2 ^ s) ^ (ds.length + 1) +
              (du * (2 ^ s) ^ ds.length + valMSB (2 ^ s) (ds.map (dUnk s)))) := by
      intro dv du hdv hdu
      rw [ih (v * 2 ^ s + dv) (u * 2 ^ s + du) (k + s) hok' (mulAdd_lt v dv k s hv hdv)
        (mulAdd_lt u du k s hu hdu) hkk]
      simp only [Option.some.injEq, Prod.mk.injEq]
      constructor <;> first | ring | trivial
    cases d with
    | val n =>
      have hn : n < 2 ^ s := hok _ (by simp) n rfl
      have hcon : ¬ 2 ^ s ≤ n := by omega
      simp only [pow2Fold, if_neg hcon, if_neg hnotbs, if_true, hvs, hus]
      rw [hfin n 0 hn (Nat.two_pow_pos s)]
      simp only [List.map_cons, List.length_cons, Option.some.injEq, Prod.mk.injEq]
      rw [valMSB_cons, valMSB_cons]
      simp only [List.length_map, dVal, dUnk]
      constructor <;> first | ring | trivial
    | dx =>
      simp only [pow2Fold, if_neg hnotbs, if_true, hvs, hus]
      rw [hfin 0 (2 ^ s - 1) (Nat.two_pow_pos s) hones]
      simp only [List.map_cons, List.length_cons, Option.some.injEq, Prod.mk.injEq]
      rw [valMSB_cons, valMSB_cons]
      simp only [List.length_map, dVal, dUnk]
      constructor <;> first | ring | trivial
    | dz =>
      simp only [pow2Fold, if_neg hnotbs, if_true, hvs, hus]
      rw [hfin (2 ^ s - 1) (2 ^ s - 1) hones hones]
      simp only [List.map_cons, List.length_cons, Option.some.injEq, Prod.mk.injEq]
      rw [valMSB_cons, valMSB_cons]
      simp only [List.length_map, dVal, dUnk]
      constructor <;> first | ring | trivial

theorem pow2Fold_false_spec (bits s W : Nat) (hsb : s < bits) :
    ∀ (ds : List Digit) (v u k : Nat),
      (∀ d ∈ ds, ∀ n, d = Digit.val n → n < 2 ^ s) →
      v < 2 ^ k → k + s * ds.length ≤ 64 * W →
      pow2Fold bits (2 ^ s) s W false ds (v, u) =
        some (v * (2 ^ s) ^ ds.length + valMSB (2 ^ s) (ds.map (dVal s)), u) := by
  intro ds
  induction ds with
  | nil =>
    intro v u k _ _ _
    simp [pow2Fold, valMSB]
  | cons d ds ih =>
    intro v u k hok hv hk
    have hkk : k + s + s * ds.length ≤ 64 * W := by
      simp only [List.length_cons, Nat.mul_succ] at hk
      omega
    have hvs : v <<< s % 2 ^ (64 * W) = v * 2 ^ s := by
      rw [Nat.shiftLeft_eq]
      apply Nat.mod_eq_of_lt
      have h1 := mulAdd_lt v 0 k s hv (Nat.two_pow_pos s)
      have h2 : 2 ^ (k + s) ≤ 2 ^ (64 * W) := Nat.pow_le_pow_right (by omega) (by omega)
      omega
    have hnotbs : ¬ bits ≤ s := by omega
    have hok' : ∀ d' ∈ ds, ∀ n, d' = Digit.val n → n < 2 ^ s :=
      fun d' hd' n hn => hok d' (by simp [hd']) n hn
    have hones : 2 ^ s - 1 < 2 ^ s := by
      have := Nat.one_le_two_pow (n := s)
      omega
    have hfin : ∀ dv : Nat, dv < 2 ^ s →
        pow2Fold bits (2 ^ s) s W false ds (v * 2 ^ s + dv, u) =
          some (v * (2 ^ s) ^ (ds.length + 1) +
              (dv * (2 ^ s) ^ ds.length + valMSB (2 ^ s) (ds.map (dVal s))), u) := by
      intro dv hdv
      rw [ih (v * 2 ^ s + dv) u (k + s) hok' (mulAdd_lt v dv k s hv hdv) hkk]
      simp only [Option.some.injEq, Prod.mk.injEq]
      constructor
      · ring
      · trivial
    cases d with
    | val n =>
      have hn : n < 2 ^ s := hok _ (by simp) n rfl
      have hcon : ¬ 2 ^ s ≤ n := by omega
      simp only [pow2Fold, if_neg hcon, if_neg hnotbs, Bool.false_eq_true, if_false, hvs]
      rw [hfin n hn]
      simp only [List.map_cons, List.length_cons, Option.some.injEq, Prod.mk.injEq]
      rw [valMSB_cons]
      simp only [List.length_map, dVal]
      constructor
      · ring
      · trivial
    | dx =>
      simp only [pow2Fold, if_neg hnotbs, Bool.false_eq_true, if_false, hvs]
      rw [hfin 0 (Nat.two_pow_pos s)]
      simp only [List.map_cons, List.length_cons, Option.some.injEq, Prod.mk.injEq]
      rw [valMSB_cons]
      simp only [List.length_map, dVal]
      constructor
      · ring
      · trivial
    | dz =>
      simp only [pow2Fold, if_neg hnotbs, Bool.false_eq_true, if_false, hvs]
      rw [hfin (2 ^ s - 1) hones]
      simp only [List.map_cons, List.length_cons, Option.some.injEq, Prod.mk.injEq]
      rw [valMSB_cons]
      simp only [List.length_map, dVal]
      constructor
      · ring
      · trivial

theorem base_pow2 (b : Base) (h : b ≠ Base.decimal) :
    b.radix = 2 ^ b.shiftN ∧ 1 ≤ b.shiftN := by
  cases b <;> simp_all [Base.radix, Base.shiftN]

theorem bits_le_64_numWords (bits : Nat) : bits ≤ 64 * numWords bits := by
  unfold numWords
  omega

theorem testBit_of_bounds (n m : Nat) (h1 : 2 ^ m ≤ n) (h2 : n < 2 ^ (m + 1)) :
    n.testBit m = true := by
  rw [Nat.testBit_to_div_mod]
  have hq : n / 2 ^ m = 1 := by
    apply Nat.div_eq_of_lt_le (by simpa using h1)
    rw [pow_succ] at h2
    omega
  simp [hq]

theorem shiftRight_eq_zero (x g : Nat) (hx : x < 2 ^ g) : x >>> g = 0 := by
  rw [Nat.shiftRight_eq_div_pow]
  exact Nat.div_eq_of_lt hx

theorem ones_top_bound (s n : Nat) (hs1 : 1 ≤ s) :
    2 ^ ((n + 1) * s - 1) ≤ (2 ^ s - 1) * (2 ^ s) ^ n := by
  have e1 : 2 ^ s * (2 ^ s) ^ n = 2 ^ ((n + 1) * s) := by
    rw [← pow_succ', ← pow_mul]
    congr 1
    ring
  have e2 : (2 ^ s) ^ n = 2 ^ (n * s) := by
    rw [← pow_mul]
    congr 1
    ring
  have hns : (n + 1) * s = n * s + s := by ring
  have e3 : 2 ^ (n * s) ≤ 2 ^ ((n + 1) * s - 1) :=
    Nat.pow_le_pow_right (by omega) (by omega)
  have e4 : 2 ^ ((n + 1) * s) = 2 * 2 ^ ((n + 1) * s - 1) := by
    rw [← pow_succ']
    congr 1
    omega
  have e5 : (2 ^ s - 1) * (2 ^ s) ^ n = 2 ^ s * (2 ^ s) ^ n - (2 ^ s) ^ n := by
    rw [Nat.sub_mul, one_mul]
  rw [e5, e1, e2]
  omega

theorem shift_or_fill (x gB bits W64 : Nat) (hx : x < 2 ^ gB) (h1 : gB ≤ bits)
    (h2 : bits ≤ W64) :
    ((x ||| (2 ^ W64 - 2 ^ gB)) % 2 ^ bits) >>> gB = mask (bits - gB) := by
  have hfill : 2 ^ W64 - 2 ^ gB = 2 ^ gB * (2 ^ (W64 - gB) - 1) := by
    rw [Nat.mul_sub_one]
    rw [← pow_add]
    congr 2
    omega
  apply Nat.eq_of_testBit_eq
  intro j
  rw [Nat.testBit_shiftRight, Nat.testBit_mod_two_pow, Nat.testBit_lor, hfill]
  have hxbit : x.testBit (gB + j) = false :=
    Nat.testBit_lt_two_pow (lt_of_lt_of_le hx (Nat.pow_le_pow_right (by omega) (by omega)))
  have hfb : (2 ^ gB * (2 ^ (W64 - gB) - 1)).testBit (gB + j) = decide (j < W64 - gB) := by
    have hb0 : (0 : Nat) < 2 ^ gB := Nat.two_pow_pos gB
    have := Nat.testBit_mul_pow_two_add (2 ^ (W64 - gB) - 1) hb0 (gB + j)
    simp only [Nat.add_zero] at this
    rw [this]
    simp [Nat.testBit_two_pow_sub_one]
  rw [hxbit, hfb, mask, Nat.testBit_two_pow_sub_one]
  simp only [Bool.false_or]
  rw [← Bool.decide_and]
  exact decide_eq_decide.mpr (by omega)

/-- C6: on the power-of-two slow path of `fromDigits`, when the most
significant written bit is an X or Z digit's top bit, that unknown state is
extended across all remaining high bits of the declared width (general
statement for any digit string whose written bits fit the width, plus the
claim's two instances, via `fromDigits` and via the full literal parser). -/
theorem c6_unknown_sign_extension
    (bits : Nat) (base : Base) (signed : Bool) (d0 : Digit) (rest : List Digit)
    (hbase : base ≠ Base.decimal)
    (hd0 : d0 = Digit.dx ∨ d0 = Digit.dz)
    (hok : ∀ d ∈ d0 :: rest, ∀ n, d = Digit.val n → n < base.radix)
    (hs : base.shiftN < bits)
    (hlen : (d0 :: rest).length * base.shiftN ≤ bits) :
    ((fromDigits bits base signed true (d0 :: rest)).map
        (fun r => (r.unknownFlag, r.unk >>> ((d0 :: rest).length * base.shiftN),
          r.val >>> ((d0 :: rest).length * base.shiftN))) =
      some (true, mask (bits - (d0 :: rest).length * base.shiftN),
        if d0 = Digit.dz then mask (bits - (d0 :: rest).length * base.shiftN) else 0)) ∧
    fromDigits 4 Base.binary false true [Digit.dx] = some (createFillX 4 false) ∧
    fromDigits 8 Base.binary false true [Digit.dz] = some (createFillZ 8 false) ∧
    fromChars [ '4', apos, 'b', 'x' ] = some (createFillX 4 false) ∧
    fromChars [ '8', apos, 'b', 'z' ] = some (createFillZ 8 false) := by
  refine ⟨?_, by decide, by decide, by decide, by decide⟩
  simp only [List.length_cons]
  obtain ⟨hr, hs1⟩ := base_pow2 base hbase
  have hW : bits ≤ 64 * numWords bits := bits_le_64_numWords bits
  simp only [List.length_cons] at hlen
  have hfold := pow2Fold_true_spec bits base.shiftN (numWords bits) hs (d0 :: rest) 0 0 0
    (by
      intro d hd n hdn
      have := hok d hd n hdn
      rwa [hr] at this)
    (by simp) (by simp)
    (by
      simp only [Nat.zero_add, List.length_cons]
      calc base.shiftN * (rest.length + 1) = (rest.length + 1) * base.shiftN := by ring
        _ ≤ bits := hlen
        _ ≤ 64 * numWords bits := hW)
  simp only [List.length_cons, List.map_cons, Nat.zero_mul, Nat.zero_add] at hfold
  have hsplit : (rest.length + 1) * base.shiftN = rest.length * base.shiftN + base.shiftN := by
    ring
  have hgB1 : 1 ≤ (rest.length + 1) * base.shiftN := by omega
  have hpowr : (2 ^ base.shiftN) ^ rest.length = 2 ^ (rest.length * base.shiftN) := by
    rw [← pow_mul, Nat.mul_comm]
  have hpowr1 : (2 ^ base.shiftN) ^ (rest.length + 1) = 2 ^ ((rest.length + 1) * base.shiftN) := by
    rw [← pow_mul, Nat.mul_comm]
  have hdbv : ∀ l ∈ rest.map (dVal base.shiftN), l < 2 ^ base.shiftN := by
    intro l hl
    obtain ⟨d, hd, rfl⟩ := List.mem_map.mp hl
    exact dVal_lt _ d (fun n hn => by
      have := hok d (by simp [hd]) n hn
      rwa [hr] at this)
  have hrv : valMSB (2 ^ base.shiftN) (rest.map (dVal base.shiftN)) <
      2 ^ (rest.length * base.shiftN) := by
    have := valMSB_lt (2 ^ base.shiftN) (rest.map (dVal base.shiftN)) Nat.one_le_two_pow hdbv
    rwa [List.length_map, hpowr] at this
  have hru : valMSB (2 ^ base.shiftN) (rest.map (dUnk base.shiftN)) <
      2 ^ (rest.length * base.shiftN) := by
    have := valMSB_lt (2 ^ base.shiftN) (rest.map (dUnk base.shiftN)) Nat.one_le_two_pow
      (by
        intro l hl
        obtain ⟨d, hd, rfl⟩ := List.mem_map.mp hl
        exact dUnk_lt _ d)
    rwa [List.length_map, hpowr] at this
  have hVcons : valMSB (2 ^ base.shiftN) (dVal base.shiftN d0 :: rest.map (dVal base.shiftN)) =
      dVal base.shiftN d0 * (2 ^ base.shiftN) ^ rest.length +
        valMSB (2 ^ base.shiftN) (rest.map (dVal base.shiftN)) := by
    rw [valMSB_cons, List.length_map]
  have hUcons : valMSB (2 ^ base.shiftN) (dUnk base.shiftN d0 :: rest.map (dUnk base.shiftN)) =
      (2 ^ base.shiftN - 1) * (2 ^ base.shiftN) ^ rest.length +
        valMSB (2 ^ base.shiftN) (rest.map (dUnk base.shiftN)) := by
    rw [valMSB_cons, List.length_map]
    rcases hd0 with h | h <;> subst h <;> rfl
  have htopb := ones_top_bound base.shiftN rest.length hs1
  have hexp : 2 ^ ((rest.length + 1) * base.shiftN) =
      2 ^ base.shiftN * (2 ^ base.shiftN) ^ rest.length := by
    rw [← pow_succ', hpowr1]
  have hdlt : dVal base.shiftN d0 < 2 ^ base.shiftN := by
    have h1 := Nat.one_le_two_pow (n := base.shiftN)
    rcases hd0 with h | h <;> subst h <;> simp only [dVal] <;> omega
  have hrvp : valMSB (2 ^ base.shiftN) (rest.map (dVal base.shiftN)) <
      (2 ^ base.shiftN) ^ rest.length := by
    have := valMSB_lt (2 ^ base.shiftN) (rest.map (dVal base.shiftN)) Nat.one_le_two_pow hdbv
    rwa [List.length_map] at this
  have hrup : valMSB (2 ^ base.shiftN) (rest.map (dUnk base.shiftN)) <
      (2 ^ base.shiftN) ^ rest.length := by
    have := valMSB_lt (2 ^ base.shiftN) (rest.map (dUnk base.shiftN)) Nat.one_le_two_pow
      (by
        intro l hl
        obtain ⟨d, hd, rfl⟩ := List.mem_map.mp hl
        exact dUnk_lt _ d)
    rwa [List.length_map] at this
  have hVlt : valMSB (2 ^ base.shiftN) (dVal base.shiftN d0 :: rest.map (dVal base.shiftN)) <
      2 ^ ((rest.length + 1) * base.shiftN) := by
    rw [hVcons, hexp]
    exact headDigit_lt _ _ _ _ hdlt hrvp
  have hUlt : valMSB (2 ^ base.shiftN) (dUnk base.shiftN d0 :: rest.map (dUnk base.shiftN)) <
      2 ^ ((rest.length + 1) * base.shiftN) := by
    have h1 := Nat.one_le_two_pow (n := base.shiftN)
    rw [hUcons, hexp]
    exact headDigit_lt _ _ _ _ (by omega) hrup
  have hUlow : 2 ^ ((rest.length + 1) * base.shiftN - 1) ≤
      valMSB (2 ^ base.shiftN) (dUnk base.shiftN d0 :: rest.map (dUnk base.shiftN)) := by
    rw [hUcons]
    omega
  have hU0 : ¬ valMSB (2 ^ base.shiftN) (dUnk base.shiftN d0 :: rest.map (dUnk base.shiftN)) = 0 := by
    have h0 : (0 : Nat) < 2 ^ ((rest.length + 1) * base.shiftN - 1) := Nat.two_pow_pos _
    omega
  have hUtop : (valMSB (2 ^ base.shiftN)
      (dUnk base.shiftN d0 :: rest.map (dUnk base.shiftN))).testBit
        ((rest.length + 1) * base.shiftN - 1) = true := by
    apply testBit_of_bounds _ _ hUlow
    have he : (rest.length + 1) * base.shiftN - 1 + 1 = (rest.length + 1) * base.shiftN := by
      omega
    rw [he]
    exact hUlt
  have hVm : valMSB (2 ^ base.shiftN) (dVal base.shiftN d0 :: rest.map (dVal base.shiftN)) %
      2 ^ bits = valMSB (2 ^ base.shiftN) (dVal base.shiftN d0 :: rest.map (dVal base.shiftN)) :=
    Nat.mod_eq_of_lt (lt_of_lt_of_le hVlt (Nat.pow_le_pow_right (by omega) hlen))
  have hUm : valMSB (2 ^ base.shiftN) (dUnk base.shiftN d0 :: rest.map (dUnk base.shiftN)) %
      2 ^ bits = valMSB (2 ^ base.shiftN) (dUnk base.shiftN d0 :: rest.map (dUnk base.shiftN)) :=
    Nat.mod_eq_of_lt (lt_of_lt_of_le hUlt (Nat.pow_le_pow_right (by omega) hlen))
  have hguard : ¬ numWords bits ≤ ((rest.length + 1) * base.shiftN - 1) / 64 := by
    omega
  have hfd : fromDigits bits base signed true (d0 :: rest) =
      some ⟨bits, signed, true,
        (if (valMSB (2 ^ base.shiftN)
              (dVal base.shiftN d0 :: rest.map (dVal base.shiftN))).testBit
            ((rest.length + 1) * base.shiftN - 1) then
          (valMSB (2 ^ base.shiftN) (dVal base.shiftN d0 :: rest.map (dVal base.shiftN)) |||
            (2 ^ (64 * numWords bits) - 2 ^ ((rest.length + 1) * base.shiftN))) % 2 ^ bits
        else valMSB (2 ^ base.shiftN) (dVal base.shiftN d0 :: rest.map (dVal base.shiftN))),
        (valMSB (2 ^ base.shiftN) (dUnk base.shiftN d0 :: rest.map (dUnk base.shiftN)) |||
          (2 ^ (64 * numWords bits) - 2 ^ ((rest.length + 1) * base.shiftN))) % 2 ^ bits⟩ := by
    simp only [fromDigits, List.isEmpty_cons, Bool.not_true, Bool.and_false,
      Bool.false_eq_true, if_false, if_neg hbase]
    rw [hr, hfold]
    simp only [List.length_cons, List.map_cons, hVm, hUm]
    rw [checkUnknown_ne _ (by simpa using hU0)]
    rw [if_pos rfl]
    rw [if_neg hguard, if_pos hUtop]
  rw [hfd]
  simp only [Option.map_some', Option.some.injEq, Prod.mk.injEq]
  refine ⟨trivial, shift_or_fill _ _ _ _ hUlt hlen hW, ?_⟩
  rcases hd0 with hdd | hdd <;> subst hdd
  · -- X top digit: value-plane top bit clear, high value bits stay zero
    have hVeq : valMSB (2 ^ base.shiftN)
        (dVal base.shiftN Digit.dx :: rest.map (dVal base.shiftN)) =
          valMSB (2 ^ base.shiftN) (rest.map (dVal base.shiftN)) := by
      rw [hVcons]
      simp [dVal]
    have hVsm : valMSB (2 ^ base.shiftN)
        (dVal base.shiftN Digit.dx :: rest.map (dVal base.shiftN)) <
          2 ^ ((rest.length + 1) * base.shiftN - 1) := by
      rw [hVeq]
      exact lt_of_lt_of_le hrv (Nat.pow_le_pow_right (by omega) (by omega))
    rw [if_neg (by simp [Nat.testBit_lt_two_pow hVsm])]
    rw [if_neg (by decide : ¬ (Digit.dx = Digit.dz))]
    exact shiftRight_eq_zero _ _ hVlt
  · -- Z top digit: the value plane is extended exactly like the unknown plane
    have hVlow : 2 ^ ((rest.length + 1) * base.shiftN - 1) ≤
        valMSB (2 ^ base.shiftN) (dVal base.shiftN Digit.dz :: rest.map (dVal base.shiftN)) := by
      rw [hVcons]
      simp only [dVal]
      omega
    have hVtop : (valMSB (2 ^ base.shiftN)
        (dVal base.shiftN Digit.dz :: rest.map (dVal base.shiftN))).testBit
          ((rest.length + 1) * base.shiftN - 1) = true := by
      apply testBit_of_bounds _ _ hVlow
      have he : (rest.length + 1) * base.shiftN - 1 + 1 = (rest.length + 1) * base.shiftN := by
        omega
      rw [he]
      exact hVlt
    rw [if_pos hVtop, if_pos rfl]
    exact shift_or_fill _ _ _ _ hVlt hlen hW

/-- Witness for C6: the `8'bz` instance of the general statement. -/
theorem c6_unknown_sign_extension_witness :
    Base.binary ≠ Base.decimal ∧ (Digit.dz = Digit.dx ∨ Digit.dz = Digit.dz) ∧
    Base.binary.shiftN < 8 ∧ ([Digit.dz] : List Digit).length * Base.binary.shiftN ≤ 8 ∧
    (fromDigits 8 Base.binary false true [Digit.dz]).map
        (fun r => (r.unknownFlag,
          r.unk >>> (([Digit.dz] : List Digit).length * Base.binary.shiftN),
          r.val >>> (([Digit.dz] : List Digit).length * Base.binary.shiftN))) =
      some (true, mask (8 - ([Digit.dz] : List Digit).length * Base.binary.shiftN),
        if Digit.dz = Digit.dz then
          mask (8 - ([Digit.dz] : List Digit).length * Base.binary.shiftN) else 0) :=
  ⟨by decide, Or.inr rfl, by decide, by decide,
    (c6_unknown_sign_extension 8 Base.binary false Digit.dz [] (by decide) (Or.inr rfl)
      (by
        intro d hd n hn
        rw [List.mem_singleton] at hd
        subst hd
        cases hn)
      (by decide) (by decide)).1⟩

/-! ### Round-trip machinery: digit lists and character tables -/

theorem valMSB_append_one (B d : Nat) (L : List Nat) :
    valMSB B (L ++ [d]) = valMSB B L * B + d := by
  show List.foldl _ 0 (L ++ [d]) = _
  rw [List.foldl_append]
  rfl

theorem valMSB_reverse (B : Nat) (L : List Nat) :
    valMSB B L.reverse = Nat.ofDigits B L := by
  induction L with
  | nil => rfl
  | cons d L ih =>
    rw [List.reverse_cons, valMSB_append_one, ih, Nat.ofDigits_cons]
    push_cast
    ring

theorem digitChar_hex : ∀ d : Nat, d < 16 →
    (hexVal (digitChar d) = d ∧ digitChar d ≠ apos ∧ digitChar d ≠ '_' ∧
     digitChar d ≠ 'x' ∧ digitChar d ≠ 'X' ∧ digitChar d ≠ 'z' ∧
     digitChar d ≠ 'Z' ∧ digitChar d ≠ '?' ∧ digitChar d ≠ '-' ∧
     digitChar d ≠ '+' ∧ digitChar d ≠ 's' ∧ digitChar d ≠ 'S') := by decide

theorem digitChar_dec : ∀ d : Nat, d < 10 →
    (isDecDigitChar (digitChar d) = true ∧ decVal (digitChar d) = d) := by decide

theorem foldl_mulAdd_mono (B : Nat) (hB : 1 ≤ B) (ds : List Nat) :
    ∀ a : Nat, a ≤ List.foldl (fun a d => a * B + d) a ds := by
  induction ds with
  | nil => intro a; exact Nat.le_refl a
  | cons d ds ih =>
    intro a
    refine le_trans ?_ (ih (a * B + d))
    have : a * 1 ≤ a * B := Nat.mul_le_mul_left a hB
    omega

theorem collectDigits_map (ds : List Nat) (h : ∀ d ∈ ds, d < 16) :
    collectDigits (ds.map digitChar) = (ds.map (fun d => Digit.val d), false) := by
  induction ds with
  | nil => rfl
  | cons d ds ih =>
    have hd := digitChar_hex d (h d (List.mem_cons_self d ds))
    simp only [List.map_cons, collectDigits,
      ih (fun x hx => h x (List.mem_cons_of_mem d hx)),
      hd.1, hd.2.2.1, hd.2.2.2.1, hd.2.2.2.2.1, hd.2.2.2.2.2.1, hd.2.2.2.2.2.2.1,
      hd.2.2.2.2.2.2.2.1]
    simp

theorem scanApos_digits_none (ds : List Nat) (h : ∀ d ∈ ds, d < 10) :
    ∀ acc ovf, (scanApos (ds.map digitChar) acc false ovf).2.1 = false ∧
      (scanApos (ds.map digitChar) acc false ovf).2.2.2 = none := by
  induction ds with
  | nil => intro acc ovf; exact ⟨rfl, rfl⟩
  | cons d ds ih =>
    intro acc ovf
    have hd10 := h d (List.mem_cons_self d ds)
    have hdc := digitChar_hex d (by omega)
    have hdd := digitChar_dec d hd10
    simp only [List.map_cons, scanApos, if_neg hdc.2.1, hdd.1, if_true]
    exact ih (fun x hx => h x (List.mem_cons_of_mem d hx)) _ _

theorem scanApos_digits (ds : List Nat) (h : ∀ d ∈ ds, d < 10) (tail : List Char) :
    ∀ acc : Nat, List.foldl (fun a d => a * 10 + d) acc ds ≤ MAXBITS →
      scanApos (ds.map digitChar ++ apos :: tail) acc false false =
        (List.foldl (fun a d => a * 10 + d) acc ds, false, false, some tail) := by
  induction ds with
  | nil =>
    intro acc hacc
    simp [scanApos]
  | cons d ds ih =>
    intro acc hacc
    have hd10 := h d (List.mem_cons_self d ds)
    have hdc := digitChar_hex d (by omega)
    have hdd := digitChar_dec d hd10
    rw [List.foldl_cons] at hacc
    have hmono := foldl_mulAdd_mono 10 (by omega) ds (acc * 10 + d)
    have hmaxlt : MAXBITS < 2 ^ 32 := by decide
    have hstep : (acc * 10 + d) % 2 ^ 32 = acc * 10 + d :=
      Nat.mod_eq_of_lt (by omega)
    simp only [List.map_cons, List.cons_append, scanApos, if_neg hdc.2.1, hdd.1, if_true,
      hdd.2, hstep, Bool.false_or]
    rw [decide_eq_false (by omega : ¬ MAXBITS < acc * 10 + d)]
    rw [List.foldl_cons]
    exact ih (fun x hx => h x (List.mem_cons_of_mem d hx)) (acc * 10 + d) hacc

theorem natToCharsGo_spec : ∀ fuel n, n < fuel →
    natToCharsGo fuel n = (Nat.digits 10 n).map digitChar := by
  intro fuel
  induction fuel with
  | zero => intro n hn; exact absurd hn (Nat.not_lt_zero n)
  | succ fuel ih =>
    intro n hn
    by_cases h0 : n = 0
    · subst h0; simp [natToCharsGo]
    · rw [natToCharsGo, if_neg h0,
        Nat.digits_def' (by norm_num : 1 < 10) (Nat.pos_of_ne_zero h0)]
      simp only [List.map_cons, List.cons.injEq]
      refine ⟨trivial, ih (n / 10) ?_⟩
      have := Nat.div_lt_self (Nat.pos_of_ne_zero h0) (by norm_num : (1 : Nat) < 10)
      omega

theorem natToChars_spec (n : Nat) (hn : n ≠ 0) :
    natToChars n = ((Nat.digits 10 n).reverse).map digitChar := by
  rw [natToChars, if_neg hn, natToCharsGo_spec (n + 1) n (Nat.lt_succ_self n),
    List.map_reverse]

theorem mkVal_small (w v : Nat) (signed : Bool) (hw : w ≤ 64) (hv : v < 2 ^ w) :
    mkVal w v signed = v := by
  unfold mkVal
  have h64 : v < 2 ^ 64 := lt_of_lt_of_le hv (Nat.pow_le_pow_right (by norm_num) hw)
  rw [Nat.mod_eq_of_lt h64, Nat.max_eq_right hw]
  simp only [Nat.sub_self, Nat.add_zero, ite_self]
  exact Nat.mod_eq_of_lt hv

theorem fastFold_spec (radix shiftv : Nat) (hrs : shiftv = 0 ∨ radix = 2 ^ shiftv)
    (hrad : 1 ≤ radix) (ds : List Nat) :
    ∀ acc : Nat, (∀ d ∈ ds, d < radix) →
      List.foldl (fun a d => a * radix + d) acc ds < 2 ^ 64 →
      fastFold radix shiftv (ds.map (fun d => Digit.val d)) acc =
        some (List.foldl (fun a d => a * radix + d) acc ds) := by
  induction ds with
  | nil => intro acc _ _; rfl
  | cons d ds ih =>
    intro acc hds hacc
    have hd : d < radix := hds d (List.mem_cons_self d ds)
    rw [List.foldl_cons] at hacc
    have hmono := foldl_mulAdd_mono radix hrad ds (acc * radix + d)
    have hsh : (if shiftv ≠ 0 then acc <<< shiftv % 2 ^ 64 else acc * radix % 2 ^ 64)
        = acc * radix := by
      rcases hrs with h0 | hpow
      · rw [if_neg (by simp [h0]), Nat.mod_eq_of_lt (by omega)]
      · by_cases hz : shiftv = 0
        · subst hz
          simp only [pow_zero] at hpow
          rw [if_neg (by simp), Nat.mod_eq_of_lt (by omega)]
        · rw [if_pos hz, Nat.shiftLeft_eq, ← hpow, Nat.mod_eq_of_lt (by omega)]
    simp only [List.map_cons, fastFold, Digit.byteVal, hsh,
      Nat.mod_eq_of_lt (show acc * radix + d < 2 ^ 64 by omega), if_neg (by omega : ¬ radix ≤ d)]
    rw [List.foldl_cons]
    exact ih (acc * radix + d) (fun x hx => hds x (List.mem_cons_of_mem d hx)) hacc

theorem decFold_spec (bits : Nat) (ds : List Nat) :
    ∀ acc : Nat, (∀ d ∈ ds, d < 10) →
      List.foldl (fun a d => a * 10 + d) acc ds < 2 ^ bits →
      decFold bits (ds.map (fun d => Digit.val d)) acc =
        some (List.foldl (fun a d => a * 10 + d) acc ds) := by
  induction ds with
  | nil => intro acc _ _; rfl
  | cons d ds ih =>
    intro acc hds hacc
    have hd : d < 10 := hds d (List.mem_cons_self d ds)
    rw [List.foldl_cons] at hacc
    have hmono := foldl_mulAdd_mono 10 (by omega) ds (acc * 10 + d)
    simp only [List.map_cons, decFold, Digit.byteVal, if_neg (by omega : ¬ 10 ≤ d),
      Nat.mod_eq_of_lt (show acc * 10 < 2 ^ bits by omega),
      Nat.mod_eq_of_lt (show acc * 10 + d < 2 ^ bits by omega)]
    rw [List.foldl_cons]
    exact ih (acc * 10 + d) (fun x hx => hds x (List.mem_cons_of_mem d hx)) hacc

theorem map_dVal_map_val (s : Nat) (ds : List Nat) :
    (ds.map (fun d => Digit.val d)).map (dVal s) = ds := by
  induction ds with
  | nil => rfl
  | cons d t ih => simp only [List.map_cons, dVal, ih]

theorem fromDigits_known (bits : Nat) (base : Base) (signed : Bool) (ds : List Nat)
    (hne : ds ≠ [])
    (hd : ∀ d ∈ ds, d < base.radix)
    (hval : List.foldl (fun a d => a * base.radix + d) 0 ds < 2 ^ bits)
    (hsl : base ≠ Base.decimal → base.shiftN * ds.length ≤ 64 * numWords bits) :
    fromDigits bits base signed false (ds.map (fun d => Digit.val d)) =
      some ⟨bits, signed, false, List.foldl (fun a d => a * base.radix + d) 0 ds, 0⟩ := by
  have hie : (ds.map (fun d => Digit.val d)).isEmpty = false := by
    cases ds with
    | nil => exact absurd rfl hne
    | cons d t => rfl
  unfold fromDigits
  rw [hie]
  simp only [Bool.false_eq_true, if_false]
  by_cases hb : bits ≤ 64
  · have hrs : base.shiftN = 0 ∨ base.radix = 2 ^ base.shiftN := by
      cases base <;> simp [Base.radix, Base.shiftN]
    have hrad : 1 ≤ base.radix := by cases base <;> simp [Base.radix]
    have h64 : List.foldl (fun a d => a * base.radix + d) 0 ds < 2 ^ 64 :=
      lt_of_lt_of_le hval (Nat.pow_le_pow_right (by norm_num) hb)
    rw [if_pos (show (decide (bits ≤ 64) && !false) = true by simp [hb])]
    rw [fastFold_spec base.radix base.shiftN hrs hrad ds 0 hd h64]
    simp only [Option.map_some']
    simp only [mkSV, mkVal_small bits _ signed hb hval]
  · rw [if_neg (show ¬ ((decide (bits ≤ 64) && !false) = true) by simp [hb])]
    by_cases hbd : base = Base.decimal
    · subst hbd
      rw [if_pos rfl]
      rw [decFold_spec bits ds 0 (by simpa [Base.radix] using hd)
        (by simpa [Base.radix] using hval)]
      simp only [Option.map_some']
      simp [Base.radix]
    · rw [if_neg hbd]
      have hb2 := base_pow2 base hbd
      have hs4 : base.shiftN ≤ 4 := by cases base <;> simp [Base.shiftN]
      have hok : ∀ d ∈ ds.map (fun d => Digit.val d), ∀ n, d = Digit.val n →
          n < 2 ^ base.shiftN := by
        intro d hdm n hn
        obtain ⟨m, hm, hme⟩ := List.mem_map.mp hdm
        subst hn
        have h1 := hd m hm
        rw [hb2.1] at h1
        injection hme with h2
        exact h2 ▸ h1
      have hlen' : 0 + base.shiftN * (ds.map (fun d => Digit.val d)).length ≤
          64 * numWords bits := by
        simpa [List.length_map] using hsl hbd
      have hspec2 : pow2Fold bits base.radix base.shiftN (numWords bits) false
          (ds.map (fun d => Digit.val d)) (0, 0) = some (valMSB base.radix ds, 0) := by
        rw [hb2.1]
        rw [pow2Fold_false_spec bits base.shiftN (numWords bits) (by omega) _ 0 0 0 hok
          Nat.one_pos hlen']
        rw [map_dVal_map_val]
        simp
      rw [hspec2]
      have hvm : valMSB base.radix ds % 2 ^ bits = valMSB base.radix ds :=
        Nat.mod_eq_of_lt hval
      simp only [checkUnknown, Bool.false_and, Bool.false_eq_true, if_false, hvm,
        Nat.zero_mod]
      rfl

theorem digits_len_le_of_lt_pow {b m k : Nat} (hb : 1 < b) (h : m < b ^ k) :
    (Nat.digits b m).length ≤ k := by
  by_cases hm : m = 0
  · subst hm; simp
  · rw [Nat.digits_len b m hb hm]
    have := Nat.log_lt_of_lt_pow hm h
    omega

theorem divLimbLoop_length (d : Nat) (L : List Nat) :
    ∀ r : Nat, (divLimbLoop d L r).1.length = L.length := by
  induction L with
  | nil => intro r; rfl
  | cons l ls ih =>
    intro r
    simp only [divLimbLoop, List.length_cons, ih]

theorem divLimbLoop_spec (d : Nat) (hd : 0 < d) (L : List Nat) :
    ∀ r : Nat, r < d →
      valMSB (2 ^ 32) (divLimbLoop d L r).1 =
        (r * (2 ^ 32) ^ L.length + valMSB (2 ^ 32) L) / d ∧
      (divLimbLoop d L r).2 = (r * (2 ^ 32) ^ L.length + valMSB (2 ^ 32) L) % d := by
  induction L with
  | nil =>
    intro r hr
    simp only [divLimbLoop, valMSB, List.foldl_nil, List.length_nil, pow_zero, Nat.mul_one,
      Nat.add_zero]
    exact ⟨(Nat.div_eq_of_lt hr).symm, (Nat.mod_eq_of_lt hr).symm⟩
  | cons l ls ih =>
    intro r hr
    have hmod : (r * 2 ^ 32 + l) % d < d := Nat.mod_lt _ hd
    obtain ⟨ih1, ih2⟩ := ih ((r * 2 ^ 32 + l) % d) hmod
    have hnum2 : r * (2 ^ 32) ^ (ls.length + 1) +
          (l * (2 ^ 32) ^ ls.length + valMSB (2 ^ 32) ls) =
        ((r * 2 ^ 32 + l) % d * (2 ^ 32) ^ ls.length + valMSB (2 ^ 32) ls) +
          d * ((r * 2 ^ 32 + l) / d * (2 ^ 32) ^ ls.length) := by
      have hdm := Nat.div_add_mod (r * 2 ^ 32 + l) d
      calc r * (2 ^ 32) ^ (ls.length + 1) + (l * (2 ^ 32) ^ ls.length + valMSB (2 ^ 32) ls)
          = (r * 2 ^ 32 + l) * (2 ^ 32) ^ ls.length + valMSB (2 ^ 32) ls := by ring
        _ = (d * ((r * 2 ^ 32 + l) / d) + (r * 2 ^ 32 + l) % d) * (2 ^ 32) ^ ls.length +
              valMSB (2 ^ 32) ls := by rw [hdm]
        _ = _ := by ring
    constructor
    · simp only [divLimbLoop, valMSB_cons, divLimbLoop_length, ih1, List.length_cons]
      rw [hnum2, Nat.add_mul_div_left _ _ hd]
      exact Nat.add_comm _ _
    · simp only [divLimbLoop, ih2]
      rw [valMSB_cons, List.length_cons, hnum2, Nat.add_mul_mod_self_left]

theorem valMSB_trimMSB (B : Nat) (L : List Nat) : valMSB B (trimMSB L) = valMSB B L := by
  induction L with
  | nil => rfl
  | cons l ls ih =>
    by_cases h : l = 0
    · subst h
      rw [trimMSB, if_pos rfl, ih, valMSB_cons]
      simp
    · rw [trimMSB, if_neg h]

theorem toLimbs_succ (n c : Nat) :
    toLimbs n (c + 1) = toLimbs n c ++ [(n >>> (32 * c)) % 2 ^ 32] := by
  rw [toLimbs, toLimbs, List.range_succ, List.map_append]
  rfl

theorem toLimbs_length (n c : Nat) : (toLimbs n c).length = c := by
  rw [toLimbs, List.length_map, List.length_range]

theorem valMSB_toLimbs_reverse (n : Nat) :
    ∀ c : Nat, valMSB (2 ^ 32) ((toLimbs n c).reverse) = n % 2 ^ (32 * c) := by
  intro c
  induction c with
  | zero => simp [toLimbs, valMSB, Nat.mod_one]
  | succ c ih =>
    rw [toLimbs_succ, List.reverse_append, List.reverse_singleton, List.singleton_append]
    rw [valMSB_cons, List.length_reverse, toLimbs_length, ih]
    have hpow : (2 : Nat) ^ (32 * (c + 1)) = 2 ^ (32 * c) * 2 ^ 32 := by
      rw [← pow_add]; ring_nf
    rw [hpow, Nat.mod_mul, Nat.shiftRight_eq_div_pow, ← pow_mul]
    ring

theorem divide_ten (t : SVInt) (hv : t.val < 2 ^ t.bitWidth) :
    divide t (numWords t.bitWidth) (mkSV 4 10 false) 1 =
      (⟨t.bitWidth, false, false, t.val / 10, 0⟩, ⟨4, false, false, t.val % 10, 0⟩) := by
  have hW := bits_le_64_numWords t.bitWidth
  have hvW : t.val < 2 ^ (32 * (2 * numWords t.bitWidth)) :=
    lt_of_lt_of_le hv (Nat.pow_le_pow_right (by norm_num) (by omega))
  have hu : valMSB (2 ^ 32) (trimMSB ((toLimbs t.val (2 * numWords t.bitWidth)).reverse)) =
      t.val := by
    rw [valMSB_trimMSB, valMSB_toLimbs_reverse, Nat.mod_eq_of_lt hvW]
  have hspec := divLimbLoop_spec 10 (by norm_num)
    (trimMSB ((toLimbs t.val (2 * numWords t.bitWidth)).reverse)) 0 (by norm_num)
  rw [hu] at hspec
  simp only [Nat.zero_mul, Nat.zero_add] at hspec
  have hmv : (mkSV 4 10 false).val = 10 := rfl
  have hsf : (mkSV 4 10 false).signFlag = false := rfl
  have htrimv : trimMSB ((toLimbs 10 2).reverse) = [10] := by decide
  have hvten : valMSB (2 ^ 32) [10] = 10 := by simp [valMSB]
  simp only [divide, hmv, hsf, Bool.and_false, htrimv, hvten, List.length_singleton,
    le_refl, if_true, hspec.1, hspec.2]
  simp only [Prod.mk.injEq]
  constructor
  · by_cases hW1 : numWords t.bitWidth = 1
    · rw [if_pos hW1]
      have hbw64 : t.bitWidth ≤ 64 := by
        unfold numWords at hW1
        omega
      have hq : t.val / 10 < 2 ^ t.bitWidth := lt_of_le_of_lt (Nat.div_le_self _ _) hv
      simp [mkSV, mkVal_small t.bitWidth _ false hbw64 hq]
    · rw [if_neg hW1]
  · have hr : t.val % 10 < 2 ^ 4 := by
      have := Nat.mod_lt t.val (show 0 < 10 by norm_num)
      omega
    have hbw4 : (mkSV 4 10 false).bitWidth = 4 := rfl
    rw [hbw4]
    simp [mkSV, mkVal_small 4 _ false (by norm_num) hr]

theorem decDigitsGo_known :
    ∀ (fuel : Nat) (t : SVInt), t.val < 2 ^ t.bitWidth → t.val < fuel →
      decDigitsGo fuel t = (Nat.digits 10 t.val).map digitChar := by
  intro fuel
  induction fuel with
  | zero => intro t _ h; exact absurd h (Nat.not_lt_zero _)
  | succ fuel ih =>
    intro t h1 h2
    by_cases h0 : t.val = 0
    · rw [decDigitsGo, if_neg (by simp [h0]), h0]
      simp
    · simp only [decDigitsGo, if_pos h0, divide_ten t h1]
      show digitChar (t.val % 10) :: decDigitsGo fuel ⟨t.bitWidth, false, false, t.val / 10, 0⟩
        = _
      have hlt := Nat.div_lt_self (Nat.pos_of_ne_zero h0) (show (1 : Nat) < 10 by norm_num)
      rw [ih ⟨t.bitWidth, false, false, t.val / 10, 0⟩
        (lt_of_le_of_lt (Nat.div_le_self _ _) h1)
        (by show t.val / 10 < fuel
            omega)]
      rw [Nat.digits_def' (by norm_num : 1 < 10) (Nat.pos_of_ne_zero h0)]
      simp only [List.map_cons]

theorem lshrAmt_known (t : SVInt) (am : Nat) (h1 : 1 ≤ am)
    (huf : t.unknownFlag = false) (hu : t.unk = 0) (hv : t.val < 2 ^ t.bitWidth) :
    lshrAmt t am = ⟨t.bitWidth, t.signFlag, false, t.val >>> am, 0⟩ := by
  unfold lshrAmt
  rw [if_neg (by omega : ¬ am = 0)]
  by_cases hle : t.bitWidth ≤ am
  · rw [if_pos hle]
    have hz : t.val >>> am = 0 :=
      shiftRight_eq_zero t.val am
        (lt_of_lt_of_le hv (Nat.pow_le_pow_right (by norm_num) hle))
    rw [hz]
    simp [mkSV, mkVal]
  · rw [if_neg hle]
    by_cases h64 : t.bitWidth ≤ 64
    · rw [if_pos (by simp [h64, huf])]
      have hsh : t.val >>> am < 2 ^ t.bitWidth := by
        rw [Nat.shiftRight_eq_div_pow]
        exact lt_of_le_of_lt (Nat.div_le_self _ _) hv
      simp [mkSV, mkVal_small t.bitWidth _ t.signFlag h64 hsh]
    · rw [if_neg (by simp [h64])]
      rw [huf, hu]
      simp [checkUnknown]

theorem pow2DigitsGo_known (sv : Nat) (hsv : 1 ≤ sv) :
    ∀ (fuel : Nat) (t : SVInt), t.unknownFlag = false → t.unk = 0 →
      t.val < 2 ^ t.bitWidth → t.val < fuel →
      pow2DigitsGo sv fuel t = (Nat.digits (2 ^ sv) t.val).map digitChar := by
  intro fuel
  induction fuel with
  | zero => intro t _ _ _ h; exact absurd h (Nat.not_lt_zero _)
  | succ fuel ih =>
    intro t huf hu hv hf
    have h2sv : 1 < 2 ^ sv := by
      have : (2 : Nat) ^ 1 ≤ 2 ^ sv := Nat.pow_le_pow_right (by norm_num) hsv
      omega
    by_cases h0 : t.val = 0
    · rw [pow2DigitsGo, if_neg (by simp [huf, h0]), h0]
      simp
    · rw [pow2DigitsGo, if_pos (by simp [h0])]
      rw [huf]
      simp only [Bool.not_false, if_true, Nat.and_pow_two_sub_one_eq_mod]
      rw [lshrAmt_known t sv hsv huf hu hv]
      have hlt := Nat.div_lt_self (Nat.pos_of_ne_zero h0) h2sv
      have hshr : t.val >>> sv = t.val / 2 ^ sv := Nat.shiftRight_eq_div_pow t.val sv
      rw [ih ⟨t.bitWidth, t.signFlag, false, t.val >>> sv, 0⟩ rfl rfl
        (by show t.val >>> sv < 2 ^ t.bitWidth
            rw [hshr]
            exact lt_of_le_of_lt (Nat.div_le_self _ _) hv)
        (by show t.val >>> sv < fuel
            rw [hshr]
            omega)]
      show digitChar (t.val % 2 ^ sv) :: (Nat.digits (2 ^ sv) (t.val >>> sv)).map digitChar = _
      rw [hshr, Nat.digits_def' h2sv (Nat.pos_of_ne_zero h0)]
      simp only [List.map_cons]

theorem neg_known (t : SVInt) (huf : t.unknownFlag = false) (hbw : 1 ≤ t.bitWidth)
    (hv : t.val < 2 ^ t.bitWidth) (hnz : t.val ≠ 0) :
    neg t = ⟨t.bitWidth, t.signFlag, false, 2 ^ t.bitWidth - t.val, 0⟩ := by
  rw [neg, if_neg (by simp [huf])]
  have hp : (2 : Nat) ^ t.bitWidth - t.val < 2 ^ t.bitWidth := by
    have := Nat.two_pow_pos t.bitWidth
    omega
  simp only [sub, unify, lt_self_iff_false, if_false, huf, Bool.or_self, Bool.false_or,
    Bool.or_false, Bool.false_eq_true, Nat.zero_add, Nat.mod_eq_of_lt hp]

theorem digitsPart_eq (R m : Nat) :
    (if ((Nat.digits R m).map digitChar).isEmpty = true then [Char.ofNat 48]
     else ((Nat.digits R m).map digitChar).reverse) =
      ((if m = 0 then [0] else (Nat.digits R m).reverse).map digitChar) := by
  by_cases hm : m = 0
  · subst hm
    simp [digitChar]
  · have hne : Nat.digits R m ≠ [] := Nat.digits_ne_nil_iff_ne_zero.mpr hm
    have hie : ((Nat.digits R m).map digitChar).isEmpty = false := by
      cases h : Nat.digits R m with
      | nil => exact absurd h hne
      | cons a l => rfl
    simp only [hie, Bool.false_eq_true, if_false, if_neg hm, List.map_reverse]

theorem writeToChars_known (x : SVInt) (hbw : 1 ≤ x.bitWidth) (huf : x.unknownFlag = false)
    (hu : x.unk = 0) (hv : x.val < 2 ^ x.bitWidth) (base : Base) :
    writeToChars x base =
      (if x.signFlag && isNeg x then ['-'] else []) ++
      (if base = Base.decimal && x.bitWidth == 32 && x.signFlag then []
       else natToChars x.bitWidth ++ [apos] ++ (if x.signFlag then ['s'] else []) ++
         [(match base with
           | Base.binary => 'b'
           | Base.octal => 'o'
           | Base.decimal => 'd'
           | Base.hex => 'h')]) ++
      ((if (if x.signFlag && isNeg x then 2 ^ x.bitWidth - x.val else x.val) = 0 then [0]
        else (Nat.digits base.radix
          (if x.signFlag && isNeg x then 2 ^ x.bitWidth - x.val else x.val)).reverse).map
        digitChar) := by
  have h2 : (2 : Nat) ^ 1 = 2 := by norm_num
  have h8 : (2 : Nat) ^ 3 = 8 := by norm_num
  have h16 : (2 : Nat) ^ 4 = 16 := by norm_num
  cases hsn : x.signFlag && isNeg x with
  | false =>
    have hdec : decDigitsGo (x.val + 1) x = (Nat.digits 10 x.val).map digitChar :=
      decDigitsGo_known (x.val + 1) x hv (by omega)
    have hbin : pow2DigitsGo 1 (x.val + x.unk + 2) x = (Nat.digits 2 x.val).map digitChar := by
      have := pow2DigitsGo_known 1 (by norm_num) (x.val + x.unk + 2) x huf hu hv (by omega)
      rw [h2] at this
      exact this
    have hoct : pow2DigitsGo 3 (x.val + x.unk + 2) x = (Nat.digits 8 x.val).map digitChar := by
      have := pow2DigitsGo_known 3 (by norm_num) (x.val + x.unk + 2) x huf hu hv (by omega)
      rw [h8] at this
      exact this
    have hhex : pow2DigitsGo 4 (x.val + x.unk + 2) x = (Nat.digits 16 x.val).map digitChar := by
      have := pow2DigitsGo_known 4 (by norm_num) (x.val + x.unk + 2) x huf hu hv (by omega)
      rw [h16] at this
      exact this
    cases base with
    | binary =>
      have hbd : decide (Base.binary = Base.decimal) = false := rfl
      simp only [writeToChars, huf, Bool.not_false, Bool.and_true, hsn, Bool.false_eq_true,
        if_false, hbd, Bool.false_and, hbin, Base.radix, List.nil_append]
      rw [digitsPart_eq 2 x.val]
    | octal =>
      have hbd : decide (Base.octal = Base.decimal) = false := rfl
      simp only [writeToChars, huf, Bool.not_false, Bool.and_true, hsn, Bool.false_eq_true,
        if_false, hbd, Bool.false_and, hoct, Base.radix, List.nil_append]
      rw [digitsPart_eq 8 x.val]
    | hex =>
      have hbd : decide (Base.hex = Base.decimal) = false := rfl
      simp only [writeToChars, huf, Bool.not_false, Bool.and_true, hsn, Bool.false_eq_true,
        if_false, hbd, Bool.false_and, hhex, Base.radix, List.nil_append]
      rw [digitsPart_eq 16 x.val]
    | decimal =>
      have hbd : decide (Base.decimal = Base.decimal) = true := rfl
      simp only [writeToChars, huf, Bool.not_false, Bool.and_true, hsn, Bool.false_eq_true,
        if_false, hbd, Bool.true_and, hdec, Base.radix, List.nil_append]
      rw [digitsPart_eq 10 x.val]
  | true =>
    have hneg : isNeg x = true := by
      simp only [Bool.and_eq_true] at hsn
      exact hsn.2
    have hnz : x.val ≠ 0 := by
      intro h0
      rw [isNeg, h0, Nat.zero_testBit] at hneg
      exact Bool.false_ne_true hneg
    have hN := neg_known x huf hbw hv hnz
    have hm : 2 ^ x.bitWidth - x.val < 2 ^ x.bitWidth := by
      have := Nat.two_pow_pos x.bitWidth
      omega
    have hdec : decDigitsGo (2 ^ x.bitWidth - x.val + 1)
        ⟨x.bitWidth, x.signFlag, false, 2 ^ x.bitWidth - x.val, 0⟩ =
        (Nat.digits 10 (2 ^ x.bitWidth - x.val)).map digitChar :=
      decDigitsGo_known _ _ hm
        (by show 2 ^ x.bitWidth - x.val < 2 ^ x.bitWidth - x.val + 1
            omega)
    have hbin : pow2DigitsGo 1 (2 ^ x.bitWidth - x.val + 0 + 2)
        ⟨x.bitWidth, x.signFlag, false, 2 ^ x.bitWidth - x.val, 0⟩ =
        (Nat.digits 2 (2 ^ x.bitWidth - x.val)).map digitChar := by
      have := pow2DigitsGo_known 1 (by norm_num) (2 ^ x.bitWidth - x.val + 0 + 2)
        ⟨x.bitWidth, x.signFlag, false, 2 ^ x.bitWidth - x.val, 0⟩ rfl rfl hm
        (by show 2 ^ x.bitWidth - x.val < 2 ^ x.bitWidth - x.val + 0 + 2
            omega)
      rw [h2] at this
      exact this
    have hoct : pow2DigitsGo 3 (2 ^ x.bitWidth - x.val + 0 + 2)
        ⟨x.bitWidth, x.signFlag, false, 2 ^ x.bitWidth - x.val, 0⟩ =
        (Nat.digits 8 (2 ^ x.bitWidth - x.val)).map digitChar := by
      have := pow2DigitsGo_known 3 (by norm_num) (2 ^ x.bitWidth - x.val + 0 + 2)
        ⟨x.bitWidth, x.signFlag, false, 2 ^ x.bitWidth - x.val, 0⟩ rfl rfl hm
        (by show 2 ^ x.bitWidth - x.val < 2 ^ x.bitWidth - x.val + 0 + 2
            omega)
      rw [h8] at this
      exact this
    have hhex : pow2DigitsGo 4 (2 ^ x.bitWidth - x.val + 0 + 2)
        ⟨x.bitWidth, x.signFlag, false, 2 ^ x.bitWidth - x.val, 0⟩ =
        (Nat.digits 16 (2 ^ x.bitWidth - x.val)).map digitChar := by
      have := pow2DigitsGo_known 4 (by norm_num) (2 ^ x.bitWidth - x.val + 0 + 2)
        ⟨x.bitWidth, x.signFlag, false, 2 ^ x.bitWidth - x.val, 0⟩ rfl rfl hm
        (by show 2 ^ x.bitWidth - x.val < 2 ^ x.bitWidth - x.val + 0 + 2
            omega)
      rw [h16] at this
      exact this
    cases base with
    | binary =>
      have hbd : decide (Base.binary = Base.decimal) = false := rfl
      simp only [writeToChars, huf, Bool.not_false, Bool.and_true, hsn, if_true, hN,
        hbd, Bool.false_and, Bool.false_eq_true, if_false, hbin, Base.radix,
        List.nil_append]
      rw [digitsPart_eq 2 (2 ^ x.bitWidth - x.val)]
    | octal =>
      have hbd : decide (Base.octal = Base.decimal) = false := rfl
      simp only [writeToChars, huf, Bool.not_false, Bool.and_true, hsn, if_true, hN,
        hbd, Bool.false_and, Bool.false_eq_true, if_false, hoct, Base.radix,
        List.nil_append]
      rw [digitsPart_eq 8 (2 ^ x.bitWidth - x.val)]
    | hex =>
      have hbd : decide (Base.hex = Base.decimal) = false := rfl
      simp only [writeToChars, huf, Bool.not_false, Bool.and_true, hsn, if_true, hN,
        hbd, Bool.false_and, Bool.false_eq_true, if_false, hhex, Base.radix,
        List.nil_append]
      rw [digitsPart_eq 16 (2 ^ x.bitWidth - x.val)]
    | decimal =>
      have hbd : decide (Base.decimal = Base.decimal) = true := rfl
      simp only [writeToChars, huf, Bool.not_false, Bool.and_true, hsn, if_true, hN,
        hbd, Bool.true_and, Bool.false_eq_true, if_false, hdec, Base.radix,
        List.nil_append]
      rw [digitsPart_eq 10 (2 ^ x.bitWidth - x.val)]

theorem digits_reverse_lt (n : Nat) : ∀ d ∈ (Nat.digits 10 n).reverse, d < 10 :=
  fun d hd => Nat.digits_lt_base (by norm_num) (List.mem_reverse.mp hd)

theorem fold_digits_reverse_base (R m : Nat) :
    List.foldl (fun a d => a * R + d) 0 ((Nat.digits R m).reverse) = m := by
  show valMSB R ((Nat.digits R m).reverse) = m
  rw [valMSB_reverse]
  exact_mod_cast Nat.ofDigits_digits R m

theorem fold_digits_reverse (n : Nat) :
    List.foldl (fun a d => a * 10 + d) 0 ((Nat.digits 10 n).reverse) = n :=
  fold_digits_reverse_base 10 n

theorem fromChars_sized (sign : Bool) (bw : Nat) (sf : Bool) (base : Base) (bc : Char)
    (dsD : List Nat) (r : SVInt)
    (hbw1 : 1 ≤ bw) (hbwM : bw ≤ MAXBITS)
    (hbf : baseFromChar bc = some base) (hbs1 : bc ≠ 's') (hbs2 : bc ≠ 'S')
    (hdsne : dsD ≠ []) (hd16 : ∀ d ∈ dsD, d < 16)
    (hfd : fromDigits bw base sf false (dsD.map (fun d => Digit.val d)) = some r) :
    fromChars ((if sign then ['-'] else []) ++ natToChars bw ++ [apos] ++
        (if sf then ['s'] else []) ++ [bc] ++ dsD.map digitChar) =
      some (if sign then neg r else r) := by
  have hbw0 : bw ≠ 0 := by omega
  have hnat := natToChars_spec bw hbw0
  have hcoll := collectDigits_map dsD hd16
  have hde : (dsD.map digitChar).isEmpty = false := by
    cases dsD with
    | nil => exact absurd rfl hdsne
    | cons a l => rfl
  have hbw0' : (bw == 0) = false := by
    simp only [beq_eq_false_iff_ne, ne_eq]
    omega
  cases hDs : (Nat.digits 10 bw).reverse with
  | nil =>
    exact absurd (List.reverse_eq_nil_iff.mp hDs) (Nat.digits_ne_nil_iff_ne_zero.mpr hbw0)
  | cons d0 dt =>
    have hDmem : ∀ d ∈ d0 :: dt, d < 10 := by
      intro d hd'
      have hmem : d ∈ (Nat.digits 10 bw).reverse := by
        rw [hDs]
        exact hd'
      exact Nat.digits_lt_base (by norm_num) (List.mem_reverse.mp hmem)
    obtain ⟨hhex0, hapos0, hund0, hx0, hX0, hz0, hZ0, hq0, hdash0, hplus0, hs0, hS0⟩ :=
      digitChar_hex d0 (by have := hDmem d0 (List.mem_cons_self d0 dt); omega)
    have hfoldbw : List.foldl (fun a d => a * 10 + d) 0 (d0 :: dt) = bw := by
      rw [← hDs]
      exact fold_digits_reverse bw
    have hscan := scanApos_digits (d0 :: dt) hDmem
      ((if sf then ['s'] else []) ++ bc :: dsD.map digitChar) 0
      (by rw [hfoldbw]; exact hbwM)
    rw [hfoldbw] at hscan
    simp only [List.map_cons, List.cons_append] at hscan
    rw [hnat, hDs]
    have hg3 : (decide (digitChar d0 = '-') || decide (digitChar d0 = '+')) = false := by
      simp [hdash0, hplus0]
    have hg4 : (decide (bc = 's') || decide (bc = 'S')) = false := by
      simp [hbs1, hbs2]
    have hgP : decide (('-' : Char) = '+') = false := by decide
    have hgS : decide (('s' : Char) = 'S') = false := by decide
    cases sign with
    | false =>
      cases sf with
      | false =>
        simp only [if_false, if_true, Bool.false_eq_true, Bool.true_eq_false,
          List.map_cons, List.cons_append, List.nil_append, List.singleton_append,
          List.append_assoc] at hscan ⊢
        simp [fromChars, hg3, List.isEmpty_cons, hscan, hbw0', hg4, hbf, hde, hcoll,
          hfd, hdash0, hplus0, hgP, hgS]
      | true =>
        simp only [if_false, if_true, Bool.false_eq_true, Bool.true_eq_false,
          List.map_cons, List.cons_append, List.nil_append, List.singleton_append,
          List.append_assoc] at hscan ⊢
        simp [fromChars, hg3, List.isEmpty_cons, hscan, hbw0', hbf, hde, hcoll,
          hfd, hdash0, hplus0, hgP, hgS]
    | true =>
      cases sf with
      | false =>
        simp only [if_false, if_true, Bool.false_eq_true, Bool.true_eq_false,
          List.map_cons, List.cons_append, List.nil_append, List.singleton_append,
          List.append_assoc] at hscan ⊢
        simp [fromChars, List.isEmpty_cons, hscan, hbw0', hg4, hbf, hde, hcoll,
          hfd, hgP, hgS]
      | true =>
        simp only [if_false, if_true, Bool.false_eq_true, Bool.true_eq_false,
          List.map_cons, List.cons_append, List.nil_append, List.singleton_append,
          List.append_assoc] at hscan ⊢
        simp [fromChars, List.isEmpty_cons, hscan, hbw0', hbf, hde, hcoll,
          hfd, hgP, hgS]

theorem fromChars_bare (sign : Bool) (dsD : List Nat) (r : SVInt)
    (hdsne : dsD ≠ []) (hd10 : ∀ d ∈ dsD, d < 10)
    (hfd : fromDigits 32 Base.decimal true false (dsD.map (fun d => Digit.val d)) = some r) :
    fromChars ((if sign then ['-'] else []) ++ dsD.map digitChar) =
      some (if sign then neg r else r) := by
  have hcoll := collectDigits_map dsD (fun d hd => lt_of_lt_of_le (hd10 d hd) (by norm_num))
  cases dsD with
  | nil => exact absurd rfl hdsne
  | cons d0 dtl =>
    have hsc := scanApos_digits_none (d0 :: dtl) hd10 0 false
    obtain ⟨hhex0, hapos0, hund0, hx0, hX0, hz0, hZ0, hq0, hdash0, hplus0, hs0, hS0⟩ :=
      digitChar_hex d0 (by have := hd10 d0 (List.mem_cons_self d0 dtl); omega)
    have hgP : decide (('-' : Char) = '+') = false := by decide
    simp only [List.map_cons] at hsc hcoll hfd
    cases sign with
    | false =>
      simp only [if_false, Bool.false_eq_true, List.nil_append, List.map_cons]
      simp [fromChars, hsc.1, hsc.2, hcoll, hfd, hdash0, hplus0]
    | true =>
      simp only [if_true, List.map_cons, List.singleton_append, List.cons_append]
      simp [fromChars, hsc.1, hsc.2, hcoll, hfd, hgP]

theorem dlist_ne_nil (R m : Nat) :
    (if m = 0 then ([0] : List Nat) else (Nat.digits R m).reverse) ≠ [] := by
  by_cases hm : m = 0
  · simp [hm]
  · simp only [if_neg hm, ne_eq, List.reverse_eq_nil_iff]
    exact Nat.digits_ne_nil_iff_ne_zero.mpr hm

theorem dlist_lt (R m : Nat) (hR : 1 < R) :
    ∀ d ∈ (if m = 0 then ([0] : List Nat) else (Nat.digits R m).reverse), d < R := by
  by_cases hm : m = 0
  · simp [hm]; omega
  · simp only [if_neg hm]
    exact fun d hd => Nat.digits_lt_base hR (List.mem_reverse.mp hd)

theorem dlist_fold (R m : Nat) :
    List.foldl (fun a d => a * R + d) 0
      (if m = 0 then ([0] : List Nat) else (Nat.digits R m).reverse) = m := by
  by_cases hm : m = 0
  · simp [hm]
  · rw [if_neg hm]
    exact fold_digits_reverse_base R m

theorem fromChars_print_sized (sign : Bool) (bw : Nat) (sf : Bool) (base : Base) (bc : Char)
    (m : Nat)
    (hbw1 : 1 ≤ bw) (hbwM : bw ≤ MAXBITS) (hm : m < 2 ^ bw)
    (hbf : baseFromChar bc = some base) (hbs1 : bc ≠ 's') (hbs2 : bc ≠ 'S')
    (hR : 1 < base.radix)
    (hsl : base ≠ Base.decimal →
      base.shiftN *
        (if m = 0 then ([0] : List Nat) else (Nat.digits base.radix m).reverse).length ≤
        64 * numWords bw) :
    fromChars ((if sign then ['-'] else []) ++ natToChars bw ++ [apos] ++
        (if sf then ['s'] else []) ++ [bc] ++
        ((if m = 0 then ([0] : List Nat) else (Nat.digits base.radix m).reverse).map
          digitChar)) =
      some (if sign then neg ⟨bw, sf, false, m, 0⟩ else ⟨bw, sf, false, m, 0⟩) := by
  have hne := dlist_ne_nil base.radix m
  have hdlt := dlist_lt base.radix m hR
  have hfold := dlist_fold base.radix m
  have hrad16 : base.radix ≤ 16 := by cases base <;> simp [Base.radix]
  have hfd := fromDigits_known bw base sf
    (if m = 0 then ([0] : List Nat) else (Nat.digits base.radix m).reverse)
    hne hdlt (by rw [hfold]; exact hm) hsl
  rw [hfold] at hfd
  exact fromChars_sized sign bw sf base bc _ _ hbw1 hbwM hbf hbs1 hbs2 hne
    (fun d hd => lt_of_lt_of_le (hdlt d hd) hrad16) hfd

/-- C7: for any well-formed value without unknown bits, converting to a string
with `toString()` (base guessed) and parsing the result with `fromString`
reproduces the value exactly: same bit width, sign flag, and value plane. -/
theorem c7_roundtrip (x : SVInt) (hwf : wf x) (huf : x.unknownFlag = false)
    (hmax : x.bitWidth ≤ MAXBITS) :
    fromString (SlangSV.toString x) = some x := by
  obtain ⟨bw, sf, uf, v, u⟩ := x
  obtain ⟨hbw1, hv, hunk, himp⟩ := hwf
  have huf' : uf = false := huf
  subst huf'
  have hu : u = 0 := himp rfl
  subst hu
  show fromChars (writeToChars ⟨bw, sf, false, v, 0⟩ (chooseBase ⟨bw, sf, false, v, 0⟩)) =
    some ⟨bw, sf, false, v, 0⟩
  have hvlt : v < 2 ^ bw := hv
  have hbw1' : (1 : Nat) ≤ bw := hbw1
  have hmax' : bw ≤ MAXBITS := hmax
  have hp2 : 0 < 2 ^ bw := Nat.two_pow_pos bw
  have hW := bits_le_64_numWords bw
  have hW1 : 1 ≤ numWords bw := by
    unfold numWords
    omega
  clear himp hunk hv hbw1 hmax huf
  cases hng : sf && v.testBit (bw - 1) with
  | true =>
    have hvne : v ≠ 0 := by
      intro h0
      have := (Bool.and_eq_true _ _).mp hng
      rw [h0, Nat.zero_testBit] at this
      exact Bool.false_ne_true this.2
    have hMlt : 2 ^ bw - v < 2 ^ bw := by omega
    have hneg_close : neg ⟨bw, sf, false, 2 ^ bw - v, 0⟩ = ⟨bw, sf, false, v, 0⟩ := by
      rw [neg_known ⟨bw, sf, false, 2 ^ bw - v, 0⟩ rfl hbw1' hMlt
        (by show 2 ^ bw - v ≠ 0; omega)]
      show (⟨bw, sf, false, 2 ^ bw - (2 ^ bw - v), 0⟩ : SVInt) = ⟨bw, sf, false, v, 0⟩
      have hvv : 2 ^ bw - (2 ^ bw - v) = v := by omega
      rw [hvv]
    by_cases h8 : bw < 8
    · have hcb : chooseBase ⟨bw, sf, false, v, 0⟩ = Base.binary := by
        simp [chooseBase, h8]
      rw [hcb, writeToChars_known ⟨bw, sf, false, v, 0⟩ hbw1' rfl rfl hvlt Base.binary]
      rw [if_neg (show ¬ ((decide (Base.binary = Base.decimal) && bw == 32 && sf) = true)
        by simp)]
      have key := fromChars_print_sized true bw sf Base.binary 'b' (2 ^ bw - v)
        hbw1' hmax' hMlt (by decide) (by decide) (by decide) (by decide)
        (by
          intro _
          by_cases hm0 : 2 ^ bw - v = 0
          · rw [if_pos hm0]
            simp only [List.length_singleton, Base.shiftN]
            omega
          · have hlen := digits_len_le_of_lt_pow (b := 2) (by norm_num) hMlt
            simp only [if_neg hm0, List.length_reverse, Base.shiftN, Base.radix]
            omega)
      simp only [List.append_assoc, if_true] at key ⊢
      simp only [isNeg, hng, if_true, Base.radix] at key ⊢
      rw [key, hneg_close]
    · by_cases hb32 : bw = 32 ∧ sf = true
      · obtain ⟨hb32', hsf'⟩ := hb32
        subst hb32'
        subst hsf'
        have hcb : chooseBase ⟨32, true, false, v, 0⟩ = Base.decimal := by
          simp [chooseBase, h8]
        rw [hcb, writeToChars_known ⟨32, true, false, v, 0⟩ hbw1' rfl rfl hvlt Base.decimal]
        rw [if_pos (show ((decide (Base.decimal = Base.decimal) && (32 : Nat) == 32 && true)
          = true) by decide)]
        have hfd := fromDigits_known 32 Base.decimal true
          (if 2 ^ 32 - v = 0 then ([0] : List Nat)
           else (Nat.digits Base.decimal.radix (2 ^ 32 - v)).reverse)
          (dlist_ne_nil _ _) (dlist_lt _ _ (by decide))
          (by rw [dlist_fold]; exact hMlt) (fun h => absurd rfl h)
        rw [dlist_fold] at hfd
        have key := fromChars_bare true
          (if 2 ^ 32 - v = 0 then ([0] : List Nat)
           else (Nat.digits Base.decimal.radix (2 ^ 32 - v)).reverse)
          ⟨32, true, false, 2 ^ 32 - v, 0⟩ (dlist_ne_nil _ _)
          (by
            have := dlist_lt Base.decimal.radix (2 ^ 32 - v) (by decide)
            simpa [Base.radix] using this)
          hfd
        simp only [List.append_assoc, if_true] at key ⊢
        simp only [isNeg, hng, if_true, Base.radix] at key ⊢
        simp only [List.nil_append] at key ⊢
        rw [key, hneg_close]
      · have hstem : ((bw == 32) && sf) = false := by
          cases hsf : sf with
          | false => simp
          | true =>
            have hnb : ¬ bw = 32 := fun h => hb32 ⟨h, hsf⟩
            simp [hnb]
        have hcond : ((bw == 32) || sf) = true := by
          have := (Bool.and_eq_true _ _).mp hng
          simp [this.1]
        have hcb : chooseBase ⟨bw, sf, false, v, 0⟩ = Base.decimal := by
          simp only [chooseBase]
          rw [if_neg (by simp [h8]), if_pos (by simpa using hcond)]
        rw [hcb, writeToChars_known ⟨bw, sf, false, v, 0⟩ hbw1' rfl rfl hvlt Base.decimal]
        rw [if_neg (show ¬ ((decide (Base.decimal = Base.decimal) && bw == 32 && sf) = true)
          by simp [hstem])]
        have key := fromChars_print_sized true bw sf Base.decimal 'd' (2 ^ bw - v)
          hbw1' hmax' hMlt (by decide) (by decide) (by decide) (by decide)
          (fun h => absurd rfl h)
        simp only [List.append_assoc, if_true] at key ⊢
        simp only [isNeg, hng, if_true, Base.radix, hstem, Bool.true_and,
          Bool.false_eq_true, if_false] at key ⊢
        rw [key, hneg_close]
  | false =>
    by_cases h8 : bw < 8
    · have hcb : chooseBase ⟨bw, sf, false, v, 0⟩ = Base.binary := by
        simp [chooseBase, h8]
      rw [hcb, writeToChars_known ⟨bw, sf, false, v, 0⟩ hbw1' rfl rfl hvlt Base.binary]
      rw [if_neg (show ¬ ((decide (Base.binary = Base.decimal) && bw == 32 && sf) = true)
        by simp)]
      have key := fromChars_print_sized false bw sf Base.binary 'b' v
        hbw1' hmax' hvlt (by decide) (by decide) (by decide) (by decide)
        (by
          intro _
          by_cases hm0 : v = 0
          · rw [if_pos hm0]
            simp only [List.length_singleton, Base.shiftN]
            omega
          · have hlen := digits_len_le_of_lt_pow (b := 2) (by norm_num) hvlt
            simp only [if_neg hm0, List.length_reverse, Base.shiftN, Base.radix]
            omega)
      simp only [Bool.false_eq_true, if_false, List.nil_append, List.append_assoc] at key
      simp only [isNeg, hng, Bool.false_eq_true, if_false, List.nil_append,
        List.append_assoc, Base.radix] at key ⊢
      rw [key]
    · by_cases hb32 : bw = 32 ∧ sf = true
      · obtain ⟨hb32', hsf'⟩ := hb32
        subst hb32'
        subst hsf'
        have hcb : chooseBase ⟨32, true, false, v, 0⟩ = Base.decimal := by
          simp [chooseBase, h8]
        rw [hcb, writeToChars_known ⟨32, true, false, v, 0⟩ hbw1' rfl rfl hvlt Base.decimal]
        rw [if_pos (show ((decide (Base.decimal = Base.decimal) && (32 : Nat) == 32 && true)
          = true) by decide)]
        have hfd := fromDigits_known 32 Base.decimal true
          (if v = 0 then ([0] : List Nat)
           else (Nat.digits Base.decimal.radix v).reverse)
          (dlist_ne_nil _ _) (dlist_lt _ _ (by decide))
          (by rw [dlist_fold]; exact hvlt) (fun h => absurd rfl h)
        rw [dlist_fold] at hfd
        have key := fromChars_bare false
          (if v = 0 then ([0] : List Nat)
           else (Nat.digits Base.decimal.radix v).reverse)
          ⟨32, true, false, v, 0⟩ (dlist_ne_nil _ _)
          (by
            have := dlist_lt Base.decimal.radix v (by decide)
            simpa [Base.radix] using this)
          hfd
        simp only [Bool.false_eq_true, if_false, List.nil_append, List.append_assoc] at key
        simp only [isNeg, hng, Bool.false_eq_true, if_false, List.nil_append,
          List.append_assoc, Base.radix] at key ⊢
        rw [key]
      · cases hcond : ((bw == 32) || sf) with
        | true =>
          have hstem : ((bw == 32) && sf) = false := by
            cases hsf : sf with
            | false => simp
            | true =>
              have hnb : ¬ bw = 32 := fun h => hb32 ⟨h, hsf⟩
              simp [hnb]
          have hcb : chooseBase ⟨bw, sf, false, v, 0⟩ = Base.decimal := by
            simp only [chooseBase]
            rw [if_neg (by simp [h8]), if_pos (by simpa using hcond)]
          rw [hcb, writeToChars_known ⟨bw, sf, false, v, 0⟩ hbw1' rfl rfl hvlt Base.decimal]
          rw [if_neg (show ¬ ((decide (Base.decimal = Base.decimal) && bw == 32 && sf) = true)
            by simp [hstem])]
          have key := fromChars_print_sized false bw sf Base.decimal 'd' v
            hbw1' hmax' hvlt (by decide) (by decide) (by decide) (by decide)
            (fun h => absurd rfl h)
          simp only [Bool.false_eq_true, if_false, List.nil_append, List.append_assoc] at key
          simp only [isNeg, hng, Bool.false_eq_true, if_false, List.nil_append,
            List.append_assoc, Base.radix, hstem, decide_True, Bool.true_and] at key ⊢
          rw [key]
        | false =>
          have hcb : chooseBase ⟨bw, sf, false, v, 0⟩ = Base.hex := by
            simp only [chooseBase]
            rw [if_neg (by simp [h8]), if_neg (by simpa using Bool.eq_false_iff.mp hcond)]
          have hsf : sf = false := by
            rcases Bool.or_eq_false_iff.mp hcond with ⟨_, h⟩
            exact h
          rw [hcb, writeToChars_known ⟨bw, sf, false, v, 0⟩ hbw1' rfl rfl hvlt Base.hex]
          rw [if_neg (show ¬ ((decide (Base.hex = Base.decimal) && bw == 32 && sf) = true)
            by simp)]
          have key := fromChars_print_sized false bw sf Base.hex 'h' v
            hbw1' hmax' hvlt (by decide) (by decide) (by decide) (by decide)
            (by
              intro _
              by_cases hm0 : v = 0
              · rw [if_pos hm0]
                simp only [List.length_singleton, Base.shiftN]
                omega
              · have hpow : v < 16 ^ ((bw + 3) / 4) := by
                  have hble : bw ≤ 4 * ((bw + 3) / 4) := by omega
                  calc v < 2 ^ bw := hvlt
                    _ ≤ 2 ^ (4 * ((bw + 3) / 4)) := Nat.pow_le_pow_right (by norm_num) hble
                    _ = 16 ^ ((bw + 3) / 4) := by
                        rw [pow_mul]
                        norm_num
                have hlen := digits_len_le_of_lt_pow (b := 16) (by norm_num) hpow
                simp only [if_neg hm0, List.length_reverse, Base.shiftN, Base.radix]
                unfold numWords
                omega)
          simp only [Bool.false_eq_true, if_false, List.nil_append, List.append_assoc] at key
          simp only [isNeg, hng, Bool.false_eq_true, if_false, List.nil_append,
            List.append_assoc, Base.radix] at key ⊢
          rw [key]

/-- Witness for C7: the known 8-bit value `8'hff` (printed in hex by the base
guess) parses back to itself. -/
theorem c7_roundtrip_witness :
    wf ⟨8, false, false, 255, 0⟩ ∧
      (⟨8, false, false, 255, 0⟩ : SVInt).unknownFlag = false ∧
      (⟨8, false, false, 255, 0⟩ : SVInt).bitWidth ≤ MAXBITS ∧
      fromString (SlangSV.toString ⟨8, false, false, 255, 0⟩) =
        some ⟨8, false, false, 255, 0⟩ :=
  ⟨⟨by norm_num, by norm_num, by norm_num, fun _ => rfl⟩, rfl, by decide,
    c7_roundtrip ⟨8, false, false, 255, 0⟩
      ⟨by norm_num, by norm_num, by norm_num, fun _ => rfl⟩ rfl (by decide)⟩

end SlangSV
